import Mathlib

/-! # Cuter-Prolog: term model, unification, arena allocator and database

A shallow embedding of `src/prolog.h` (with the configuration of
`src/prolog_config.h`).

* A `Term*` is the index of a node in a `Heap`; `NULL` is `none`.
* A `char* name` is represented by the text it points to.
* `size_t` arithmetic of the allocator is taken modulo `2 ^ 64`.
* Loops that follow pointers take a `fuel` argument; `none` means that the
  fuel ran out or that a pointer outside the heap was followed.
* `prolog_unify` is given twice.  `prolog_unify` follows the terms and the
  fields of the result, and stops at the first store past the end of `stack`.
  `prolog_unify_run` follows in addition the answers of `malloc` and
  `realloc` and the room of the buffer of the result, counts the stores past
  the end of the two arrays, and goes on after them.
* The constructors are given at the level of the bytes of the arena
  (`prolog_newAtom`, ...) and, on top of that, with the nodes they make
  (`TermStore.newAtom`, ...).
-/

set_option autoImplicit false

/-! ## Configuration (`src/prolog_config.h`) -/

/-- Macro `#define PROLOG_STACK_SIZE 1024` -/
def PROLOG_STACK_SIZE : Nat := 1024

/-- Macro `#define PROLOG_ARENA_SIZE 4096 * 64` -/
def PROLOG_ARENA_SIZE : Nat := 4096 * 64

/-- Modelled from the spec: `PROLOG_STACK_HEIGHT` is the bound tested by the
overflow guard of `prolog_unify`, but no source file defines it.  The spec
bounds the worklist by its capacity, so the guard is read with the capacity of
the `stack` array. -/
def PROLOG_STACK_HEIGHT : Nat := PROLOG_STACK_SIZE

/-! ## Terms (`STRUCT(Term)`) -/

/-- Macro `#define PROLOG_KIND_ATOM 1` -/
def PROLOG_KIND_ATOM : Nat := 1
/-- Macro `#define PROLOG_KIND_VARIABLE 2` -/
def PROLOG_KIND_VARIABLE : Nat := 2
/-- Macro `#define PROLOG_KIND_COMPOUND 3` -/
def PROLOG_KIND_COMPOUND : Nat := 3

/-- A `Term` node: the tagged union of `Atom`, `Variable` and `Compound`.
`components` is the array `components[0 .. arity)`. -/
inductive Term where
  | atom (name : String)
  | variable (name : String) (bound : Option Nat)
  | compound (name : String) (components : List Nat)
  deriving DecidableEq, Repr

/-- The `kind` tag of a node. -/
def Term.kind : Term → Nat
  | Term.atom _ => PROLOG_KIND_ATOM
  | Term.variable _ _ => PROLOG_KIND_VARIABLE
  | Term.compound _ _ => PROLOG_KIND_COMPOUND

/-- The `c.arity` field of a compound (0 for the other kinds, which the code
never asks). -/
def Term.arity : Term → Nat
  | Term.compound _ cs => cs.length
  | _ => 0

/-- The `c.components` array of a compound. -/
def Term.components : Term → List Nat
  | Term.compound _ cs => cs
  | _ => []

/-- The `name` field, which all three variants have. -/
def Term.name : Term → String
  | Term.atom n => n
  | Term.variable n _ => n
  | Term.compound n _ => n

/-- The memory holding the `Term` nodes; a `Term*` is an index into it. -/
abbrev Heap := List Term

/-- Type `typedef struct { Term* x; Term* y; } TermPair;` -/
structure TermPair where
  x : Nat
  y : Nat
  deriving DecidableEq, Repr

/-! ## Unification results -/

/-- Type `STRUCT(PrologUnification)`: `unifiers` is `none` for `NULL`, otherwise the
entries `unifiers[0 .. size)`. -/
structure PrologUnification where
  success : Nat
  unifiers : Option (List TermPair)
  size : Nat
  _cap : Nat
  deriving DecidableEq, Repr

/-- Function `prolog_unificationDestroy`: frees the list and clears `unifiers`, `size`
and `_cap`; `success` is not touched, and neither is any `Term`. -/
def prolog_unificationDestroy (u : PrologUnification) : PrologUnification :=
  PrologUnification.mk u.success none 0 0

/-- Function `_prolog_replaceVars(in, with)`: a Variable gets `bound = with`, a Compound
is walked component by component, an Atom is left alone. -/
def _prolog_replaceVars : Nat → Heap → Nat → Nat → Option Heap
  | 0, _, _, _ => none
  | fuel + 1, h, inp, w =>
    match h[inp]? with
    | none => none
    | some (Term.variable name _) => some (h.set inp (Term.variable name (some w)))
    | some (Term.compound _ cs) =>
      cs.foldlM (fun h' c => _prolog_replaceVars fuel h' c w) h
    | some (Term.atom _) => some h

/-- Function `_prolog_push_unifier(u, a, b)`: doubles `_cap` when the list is full, then
stores the pair at index `size` and increments `size`.  (`size` and `_cap`
cannot reach `2 ^ 63` entries in memory, so their wrap-around is left out.)
Only the fields of `u` and the pairs recorded are followed here; the answer of
`realloc` and the room of the buffer are followed by
`_prolog_push_unifier_run` below. -/
def _prolog_push_unifier (u : PrologUnification) (a b : Nat) : PrologUnification :=
  PrologUnification.mk u.success
    (some (u.unifiers.getD [] ++ [TermPair.mk a b]))
    (u.size + 1)
    (if u.size ≥ u._cap then u._cap * 2 else u._cap)

/-- The inner loop of the Variable branch of `prolog_unify`:
`for (i < stack_height) { _prolog_replaceVars(stack[i].x, var);
_prolog_replaceVars(stack[i].y, var); }`. -/
def substituteStack (fuel : Nat) (h : Heap) (stack : List TermPair) (var : Nat) :
    Option Heap :=
  stack.foldlM
    (fun h' tp => (_prolog_replaceVars fuel h' tp.x var).bind
      (fun h'' => _prolog_replaceVars fuel h'' tp.y var)) h

/-- How a call of `prolog_unify` ends. -/
inductive Outcome where
  /-- Statement `return q`, with the heap as the call left it. -/
  | returned (h : Heap) (q : PrologUnification)
  /-- The guard `stack_height >= PROLOG_STACK_HEIGHT` fired: `exit(1)`. -/
  | overflow
  /-- A push stored a pair at an index that is not below `PROLOG_STACK_SIZE`,
  past the end of `TermPair stack[PROLOG_STACK_SIZE]`. -/
  | outOfBounds
  deriving DecidableEq, Repr

/-- The `while (stack_height)` loop of `prolog_unify`.  `stack` holds
`stack[0 .. stack_height)`, so the pair popped is the last one.  The result is
the heap and `q` at the point where the loop is left.

`atomBound t` is what `t.a.bound` reads for an Atom node `t`: `STRUCT(Atom)`
declares no such member, so the value is a parameter. -/
def prolog_unify_loop (atomBound : Nat → Option Nat) :
    Nat → Heap → List TermPair → PrologUnification → Option Outcome
  | 0, _, _, _ => none
  | fuel + 1, h, stack, q =>
    if stack.length = 0 then some (Outcome.returned h q)
    else if stack.length ≥ PROLOG_STACK_HEIGHT then some Outcome.overflow
    else
      match stack.getLast? with
      | none => none
      | some tp =>
        let rest := stack.dropLast
        match h[tp.x]?, h[tp.y]? with
        | some tx, some ty =>
          if (tx.kind == PROLOG_KIND_VARIABLE && ty.kind != PROLOG_KIND_VARIABLE) ||
             (tx.kind == PROLOG_KIND_VARIABLE && tx.kind != PROLOG_KIND_VARIABLE) then
            let var := if tx.kind == PROLOG_KIND_VARIABLE then tp.x else tp.y
            match substituteStack fuel h rest var with
            | none => none
            | some h' =>
              prolog_unify_loop atomBound fuel h' rest (_prolog_push_unifier q tp.x tp.y)
          else if (tx.kind == PROLOG_KIND_VARIABLE || tx.kind == PROLOG_KIND_ATOM) &&
                  (ty.kind == PROLOG_KIND_VARIABLE || ty.kind == PROLOG_KIND_ATOM) then
            let xbound :=
              match tx with
              | Term.variable _ b => b
              | _ => atomBound tp.x
            let ybound :=
              match ty with
              | Term.variable _ b => b
              | _ => atomBound tp.y
            if xbound = ybound then
              -- `continue;`
              prolog_unify_loop atomBound fuel h rest q
            else
              -- nothing follows the `if`: the loop body ends here
              prolog_unify_loop atomBound fuel h rest q
          else if (tx.kind == PROLOG_KIND_COMPOUND && ty.kind == PROLOG_KIND_COMPOUND) &&
                  tx.arity != 0 && tx.arity == ty.arity then
            if rest.length + tx.arity > PROLOG_STACK_SIZE then some Outcome.outOfBounds
            else
              prolog_unify_loop atomBound fuel h
                (rest ++ List.zipWith TermPair.mk tx.components ty.components) q
          else
            -- `q.success = 0; break;`
            some (Outcome.returned h (PrologUnification.mk 0 q.unifiers q.size q._cap))
        | _, _ => none

/-- Function `prolog_unify(ctx, t1, t2)` (`ctx` is not used by the body).  `q` starts as
`{1, malloc(64 entries), 0, 64}`, the worklist as the single pair `(t1, t2)`;
after the loop a failed `q` goes through `prolog_unificationDestroy`. -/
def prolog_unify (atomBound : Nat → Option Nat) (fuel : Nat) (h : Heap) (t1 t2 : Nat) :
    Option Outcome :=
  match prolog_unify_loop atomBound fuel h [TermPair.mk t1 t2]
      (PrologUnification.mk 1 (some []) 0 64) with
  | some (Outcome.returned h' q) =>
    some (Outcome.returned h' (if q.success = 0 then prolog_unificationDestroy q else q))
  | r => r

/-! ## The arena (`STRUCT(PrologArena)`, `_prolog_align`, `prolog_alloc`) -/

/-- Macro `#define PROLOG_CATCH_OOM 1` (the default of `prolog_config.h`). -/
def PROLOG_CATCH_OOM : Nat := 1

/-- The number of values of a `size_t`. -/
def SIZE_MODULUS : Nat := 2 ^ 64

/-- One byte of `buf`: never written, a character, or a byte of the
representation of something that is not a character (a `Term` struct, a
pointer). -/
inductive MemByte where
  | uninit
  | char (c : Nat)
  | object
  deriving DecidableEq, Repr

/-- Type `STRUCT(PrologArena)`: `char buf[PROLOG_ARENA_SIZE]` and `size_t bump`. -/
structure PrologArena where
  buf : Nat → MemByte
  bump : Nat

/-- Function `_prolog_align(n, align)`: `(n + align - 1) & -align` in `size_t`
arithmetic. -/
def _prolog_align (n align : Nat) : Nat :=
  ((n + align + (SIZE_MODULUS - 1)) % SIZE_MODULUS) &&&
    ((SIZE_MODULUS - align % SIZE_MODULUS) % SIZE_MODULUS)

/-- Function `prolog_alloc(a, bytes, align)`: `bump` is moved first, then tested.
`none` is the exit with "Prolog OOM."; otherwise the offset of the returned
pointer into `buf` and the arena after the call. -/
def prolog_alloc (a : PrologArena) (bytes align : Nat) : Option (Nat × PrologArena) :=
  let frm := _prolog_align a.bump align
  let a' := PrologArena.mk a.buf ((frm + bytes) % SIZE_MODULUS)
  if PROLOG_CATCH_OOM ≠ 0 ∧ (frm + bytes) % SIZE_MODULUS ≥ PROLOG_ARENA_SIZE then none
  else some (frm, a')

/-! ## The database and resolution -/

/-- The `facts`, `size` and `cap` members of `STRUCT(PrologDatabase)`: `facts`
is `none` for `NULL`, otherwise the entries `facts[0 .. size)`. -/
structure PrologDatabase where
  facts : Option (List Nat)
  size : Nat
  cap : Nat
  deriving DecidableEq, Repr

/-- Function `prolog_database_init`: `facts = NULL; size = 0; cap = 0`. -/
def prolog_database_init : PrologDatabase := PrologDatabase.mk none 0 0

/-- Function `prolog_addFact(db, fact)`: a `NULL` array is allocated with `cap = 64`, a
full one is reallocated with `cap` doubled, then `facts[size++] = fact`.  (A
fresh array holds nothing below `size`, so for `facts = NULL` the model is
exact when `size = 0`, as `prolog_database_init` leaves it.) -/
def prolog_addFact (db : PrologDatabase) (fact : Nat) : PrologDatabase :=
  match db.facts with
  | none => PrologDatabase.mk (some [fact]) (db.size + 1) 64
  | some fs =>
    PrologDatabase.mk (some (fs.take db.size ++ [fact])) (db.size + 1)
      (if db.size ≥ db.cap then db.cap * 2 else db.cap)

/-- Function `prolog_resolve(ctx, query)`: the body is empty.  Nothing is read, no node
is written and no solution is handed back, so the call is modelled by the heap
it leaves (the one it got) and the list of solutions it yields (none). -/
def prolog_resolve (_db : PrologDatabase) (h : Heap) (_query : Nat) :
    Heap × List PrologUnification :=
  (h, [])

/-! ## Term constructors, at the level of the bytes of the arena -/

/-- The sizes and alignments that `prolog_newAtom`, `prolog_newVariable` and
`prolog_newCompound` pass to `prolog_alloc`: `sizeof(Term)`, `_Alignof(Term)`,
`sizeof(Term*)` and `_Alignof(Term*)`. -/
structure Layout where
  sizeofTerm : Nat
  alignofTerm : Nat
  sizeofPtr : Nat
  alignofPtr : Nat
  deriving DecidableEq, Repr

/-- The usual 64-bit data model: pointers and `size_t` of 8 bytes, so that a
`Term` (three words and the `kind` byte, padded) has 32 bytes and alignment 8. -/
def lp64 : Layout := Layout.mk 32 8 8 8

/-- A store into an object of `size` bytes at offset `off` (a member of a
`Term` struct, or a pointer of the `components` array): the bytes of the object
no longer hold characters.  The value of such a byte is not followed: it
depends on the address of the arena and can be any value, zero included, so a
string read that meets one has no result in the model. -/
def storeObject (buf : Nat → MemByte) (off size : Nat) : Nat → MemByte :=
  fun i => if off ≤ i ∧ i < off + size then MemByte.object else buf i

/-- Function `strlen(name)` for a name given as the list of its (non-zero) characters. -/
def strlen (name : List Nat) : Nat := name.length

/-- Function `strcpy(dst, src)`: the characters of `src` and then the terminating NUL
are written from offset `dst` on, `strlen(src) + 1` bytes in all. -/
def strcpy (buf : Nat → MemByte) (dst : Nat) (src : List Nat) : Nat → MemByte :=
  fun i =>
    if dst ≤ i ∧ i < dst + src.length then MemByte.char (src.getD (i - dst) 0)
    else if i = dst + src.length then MemByte.char 0
    else buf i

/-- Reading a NUL-terminated string at offset `p`: the characters before the
first NUL.  `none` when a byte that is not a character is met first (or the
fuel runs out). -/
def readCString (buf : Nat → MemByte) : Nat → Nat → Option (List Nat)
  | 0, _ => none
  | fuel + 1, p =>
    match buf p with
    | MemByte.char 0 => some []
    | MemByte.char c => (readCString buf fuel (p + 1)).map (fun cs => c :: cs)
    | _ => none

/-- What a constructor leaves behind: the `Term*` it returns, the `name`
pointer it stored in the node, and the arena. -/
structure Built where
  term : Nat
  name : Nat
  arena : PrologArena

/-- Function `prolog_newAtom(a, name)`, in the order of the source: allocate the node,
allocate `strlen(name)` bytes, store `kind`, `strcpy` the name, store the
`name` pointer. -/
def prolog_newAtom (L : Layout) (a : PrologArena) (name : List Nat) : Option Built :=
  match prolog_alloc a L.sizeofTerm L.alignofTerm with
  | none => none
  | some (t, a1) =>
    match prolog_alloc a1 (strlen name) 1 with
    | none => none
    | some (n, a2) =>
      let buf1 := storeObject a2.buf t L.sizeofTerm
      let buf2 := strcpy buf1 n name
      let buf3 := storeObject buf2 t L.sizeofTerm
      some (Built.mk t n (PrologArena.mk buf3 a2.bump))

/-- Function `prolog_newVariable(a, name)`: as `prolog_newAtom`, and `bound = NULL` is
stored into the node as well. -/
def prolog_newVariable (L : Layout) (a : PrologArena) (name : List Nat) : Option Built :=
  match prolog_alloc a L.sizeofTerm L.alignofTerm with
  | none => none
  | some (t, a1) =>
    match prolog_alloc a1 (strlen name) 1 with
    | none => none
    | some (n, a2) =>
      let buf1 := storeObject a2.buf t L.sizeofTerm
      let buf2 := strcpy buf1 n name
      let buf3 := storeObject buf2 t L.sizeofTerm
      let buf4 := storeObject buf3 t L.sizeofTerm
      some (Built.mk t n (PrologArena.mk buf4 a2.bump))

/-- Function `prolog_newCompound(a, name, arity, ...)` with the variadic arguments as
a list: allocate the node, `strlen(name)` bytes and the `components` array,
store `kind` and `arity`, `strcpy` the name, store `name` and `components`,
then store the arguments into the array one by one. -/
def prolog_newCompound (L : Layout) (a : PrologArena) (name : List Nat) (args : List Nat) :
    Option Built :=
  match prolog_alloc a L.sizeofTerm L.alignofTerm with
  | none => none
  | some (t, a1) =>
    match prolog_alloc a1 (strlen name) 1 with
    | none => none
    | some (n, a2) =>
      match prolog_alloc a2 ((L.sizeofPtr * args.length) % SIZE_MODULUS) L.alignofPtr with
      | none => none
      | some (c, a3) =>
        let buf1 := storeObject a3.buf t L.sizeofTerm
        let buf2 := strcpy buf1 n name
        let buf3 := storeObject buf2 t L.sizeofTerm
        let buf4 := (List.range args.length).foldl
          (fun b i => storeObject b (c + i * L.sizeofPtr) L.sizeofPtr) buf3
        some (Built.mk t n (PrologArena.mk buf4 a3.bump))

/-! ## Predicates used in the statements -/

/-- Predicate `GroundForest h ts n`: in heap `h`, every term of the list `ts` is built
from Atoms and from Compounds of arity at least 1 only, and the terms of `ts`
have `n` nodes in all (a node reached along two paths is counted twice). -/
inductive GroundForest (h : Heap) : List Nat → Nat → Prop where
  | nil : GroundForest h [] 0
  | atom (t : Nat) (name : String) (ts : List Nat) (n : Nat) :
      h[t]? = some (Term.atom name) → GroundForest h ts n → GroundForest h (t :: ts) (n + 1)
  | compound (t : Nat) (name : String) (cs ts : List Nat) (m n : Nat) :
      h[t]? = some (Term.compound name cs) → cs ≠ [] →
      GroundForest h cs m → GroundForest h ts n → GroundForest h (t :: ts) (m + n + 1)

/-- The worklist entry `(t, t)`. -/
def diagPair (t : Nat) : TermPair := TermPair.mk t t

/-- Predicate `OnlyBinds w h h'`: going from heap `h` to heap `h'`, every node is as it
was, except that a Variable may have had its `bound` field set to `w`. -/
def OnlyBinds (w : Nat) (h h' : Heap) : Prop :=
  ∀ a : Nat, h'[a]? = h[a]? ∨
    ∃ n b, h[a]? = some (Term.variable n b) ∧ h'[a]? = some (Term.variable n (some w))

/-- Predicate `BindsOnly h h'`: going from heap `h` to heap `h'`, every node is as it was,
except that a Variable may have had its `bound` field set to some node. -/
def BindsOnly (h h' : Heap) : Prop :=
  ∀ a : Nat, h'[a]? = h[a]? ∨
    ∃ n b w, h[a]? = some (Term.variable n b) ∧ h'[a]? = some (Term.variable n (some w))

/-- A call of `prolog_unify` followed by `prolog_unificationDestroy` on what it
returned, which is the only operation the code has for a result. -/
def unifyThenDestroy (atomBound : Nat → Option Nat) (fuel : Nat) (h : Heap) (t1 t2 : Nat) :
    Option Outcome :=
  match prolog_unify atomBound fuel h t1 t2 with
  | some (Outcome.returned h' q) => some (Outcome.returned h' (prolog_unificationDestroy q))
  | r => r

/-! ## The inputs of the worked examples -/

/-- An `atomBound` that reads a null pointer for every Atom, for runs on
concrete heaps. -/
def nullBound : Nat → Option Nat := fun _ => none

/-- The heap holding the two Atoms `a` and `b`. -/
def heapAB : Heap := [Term.atom "a", Term.atom "b"]

/-- The heap `X, f(X), g(X)`. -/
def heapFG : Heap :=
  [Term.variable "X" none, Term.compound "f" [0], Term.compound "g" [0]]

/-- The heap `X, a, f(a)`. -/
def heapXfa : Heap := [Term.variable "X" none, Term.atom "a", Term.compound "f" [1]]

/-- The heap `a, f(a, ..., a)` with `n` arguments. -/
def heapWide (n : Nat) : Heap := [Term.atom "a", Term.compound "f" (List.replicate n 0)]

/-- The heap `X, Y, Z, a, f(Y, X), f(Z, a)`, with `Y` bound to `a` and `X`, `Z`
unbound. -/
def heapYZ : Heap :=
  [Term.variable "X" none, Term.variable "Y" (some 3), Term.variable "Z" none, Term.atom "a",
   Term.compound "f" [1, 0], Term.compound "f" [2, 3]]

/-- The heap `mary, wine, john, likes(mary, wine), likes(john, wine), X,
likes(X, wine)`. -/
def heapLikes : Heap :=
  [Term.atom "mary", Term.atom "wine", Term.atom "john",
   Term.compound "likes" [0, 1], Term.compound "likes" [2, 1],
   Term.variable "X" none, Term.compound "likes" [5, 1]]

/-- The database holding `likes(mary, wine)` and `likes(john, wine)`, added in
this order. -/
def dbLikes : PrologDatabase := prolog_addFact (prolog_addFact prolog_database_init 3) 4

/-- A `buf` no byte of which was written. -/
def emptyBuf : Nat → MemByte := fun _ => MemByte.uninit

/-- A fresh arena: `bump = 0`, nothing written. -/
def arena0 : PrologArena := PrologArena.mk emptyBuf 0

/-- The characters of `"abcdefgh"`. -/
def nameAbcdefgh : List Nat := [97, 98, 99, 100, 101, 102, 103, 104]

/-- The characters of `"X"`. -/
def nameX : List Nat := [88]

/-- The name of the node built first, read back after the given construction
steps: `none` if a step ran out of memory, `some none` if what is stored at the
name pointer is no longer a NUL-terminated string of characters. -/
def readBackAfter (first : Option Built) (later : PrologArena → Option Built) :
    Option (Option (List Nat)) :=
  match first with
  | none => none
  | some b =>
    match later b.arena with
    | none => none
    | some b' => some (readCString b'.arena.buf 64 b.name)

/-- The heap `a, b, X, g(a), f(g(a), X), f(a, b)`. -/
def heapLate : Heap :=
  [Term.atom "a", Term.atom "b", Term.variable "X" none, Term.compound "g" [0],
   Term.compound "f" [3, 2], Term.compound "f" [0, 1]]

/-- One call of `prolog_alloc` in a sequence: the request (`bytes`, `align`),
the offset returned and the value of `bump` after the call. -/
structure AllocRecord where
  bytes : Nat
  align : Nat
  offset : Nat
  bump : Nat
  deriving DecidableEq, Repr

/-- A sequence of `prolog_alloc` calls on one arena, for the requests
`(bytes, align)` in order: the record of each call, or `none` if a call
reported out-of-memory. -/
def allocAll : PrologArena → List (Nat × Nat) → Option (List AllocRecord)
  | _, [] => some []
  | a, (bytes, align) :: rest =>
    match prolog_alloc a bytes align with
    | none => none
    | some (off, a') =>
      match allocAll a' rest with
      | none => none
      | some l => some (AllocRecord.mk bytes align off a'.bump :: l)

/-- The stored sequence `facts[0 .. size)` of a database (empty for `NULL`). -/
def PrologDatabase.entries (db : PrologDatabase) : List Nat := db.facts.getD []

/-- A database state in which `size` is the number of stored entries: the
state `prolog_database_init` leaves, and every state `prolog_addFact` makes of
such a state. -/
def PrologDatabase.Valid (db : PrologDatabase) : Prop := db.entries.length = db.size

/-- The database after `prolog_database_init` and one `prolog_addFact` call
for each fact of the list, in order. -/
def addFacts (fs : List Nat) : PrologDatabase := fs.foldl prolog_addFact prolog_database_init

/-- The name `f` as a C string. -/
def nameF : List Nat := [102]

/-- The text spelled by the characters of a name. -/
def nameText (name : List Nat) : String := String.mk (name.map Char.ofNat)

/-- The terms made so far in one arena: the arena itself, the nodes (`heap`),
and for every node the offset of its `Term` struct in `buf` (`addr`), so that
node `i` is the `Term` at `a->buf + addr[i]`. -/
structure TermStore where
  arena : PrologArena
  addr : List Nat
  heap : Heap

/-- The loop `for (i = 0; i < arity; i++) components[i] = va_arg(argp, Term*)`
of `prolog_newCompound`, on the freshly allocated array of `arity` entries; the
variadic arguments are given as a list and `arity` is their number. -/
def fillComponents (args : List Nat) : List Nat :=
  (List.range args.length).foldl (fun cs i => cs.set i (args.getD i 0))
    (List.replicate args.length 0)

/-- Function `prolog_newCompound(a, name, arity, ...)` with the node it stores: the
three requests to `prolog_alloc` are those of `prolog_newCompound` above, and
`none` is the out-of-memory exit of one of them, the only exit of the function
beside its `return t`: there is no test of `arity`.  The node has
`kind = PROLOG_KIND_COMPOUND`, `arity`, the name, and the `components` array
filled from the arguments. -/
def TermStore.newCompound (L : Layout) (s : TermStore) (name : List Nat)
    (args : List Nat) : Option (Nat × TermStore) :=
  match prolog_newCompound L s.arena name args with
  | none => none
  | some b =>
    some (s.heap.length,
      TermStore.mk b.arena (s.addr ++ [b.term])
        (s.heap ++ [Term.compound (nameText name) (fillComponents args)]))

/-- The memory that a run of `prolog_unify` uses beside the terms and the fields
of `q`: `room` is the number of `TermPair` entries for which the buffer
`q.unifiers` has room, `allocs` the number of requests made to `malloc` and
`realloc` so far, and `stackPast` and `unifiersPast` count the pairs that were
stored past the end of `stack` and past the end of the buffer `q.unifiers`. -/
structure RunLog where
  room : Nat
  allocs : Nat
  stackPast : Nat
  unifiersPast : Nat
  deriving DecidableEq, Repr

/-- How a call of `prolog_unify` ends, with the log of the run. -/
inductive Ending where
  /-- Statement `return q`, with the heap as the call left it. -/
  | returned (h : Heap) (q : PrologUnification) (m : RunLog)
  /-- The guard `stack_height >= PROLOG_STACK_HEIGHT` fired: `exit(1)` after
  the message `Prolog stack overflow.` -/
  | overflow (m : RunLog)
  /-- A call of `malloc` or `realloc` returned `NULL`: `exit(1)` after the
  message `Prolog OOM.` -/
  | outOfMemory (m : RunLog)
  deriving DecidableEq, Repr

/-- Function `_prolog_push_unifier(u, a, b)` with the buffer followed; the fields of
`u` change as in `_prolog_push_unifier` above.  `allocOk i` says whether request
number `i` to `malloc` or `realloc` is granted.  When the list is full,
`realloc` is asked for `sizeof(Term*) * (_cap *= 2)` bytes; an entry is a
`TermPair` of two pointers, so the new buffer has room for half of the new
`_cap` entries.  `none` is the exit after a `realloc` that returned `NULL`.
The pair is then stored at index `size`, which is past the end of the buffer
when `size` is not below `room`. -/
def _prolog_push_unifier_run (allocOk : Nat → Bool) (u : PrologUnification) (m : RunLog)
    (a b : Nat) : Option (PrologUnification × RunLog) :=
  if u.size ≥ u._cap then
    if allocOk m.allocs then
      let room := u._cap * 2 / 2
      some (_prolog_push_unifier u a b,
        RunLog.mk room (m.allocs + 1) m.stackPast
          (m.unifiersPast + (if u.size ≥ room then 1 else 0)))
    else none
  else
    some (_prolog_push_unifier u a b,
      RunLog.mk m.room m.allocs m.stackPast
        (m.unifiersPast + (if u.size ≥ m.room then 1 else 0)))

/-- The `while (stack_height)` loop of `prolog_unify` with the log of the run.  The
branches are those of `prolog_unify_loop`.  A `realloc` that fails ends the
run.  A store past the end of `stack` or of the buffer `q.unifiers` is counted
in the log and the run goes on: such a store is taken to land in memory that
the call does not use otherwise, so that `stack_height`, `q` and the terms keep
their values and the pair is read back as it was stored. -/
def prolog_unify_loop_run (atomBound : Nat → Option Nat) (allocOk : Nat → Bool) :
    Nat → Heap → List TermPair → PrologUnification → RunLog → Option Ending
  | 0, _, _, _, _ => none
  | fuel + 1, h, stack, q, m =>
    if stack.length = 0 then some (Ending.returned h q m)
    else if stack.length ≥ PROLOG_STACK_HEIGHT then some (Ending.overflow m)
    else
      match stack.getLast? with
      | none => none
      | some tp =>
        let rest := stack.dropLast
        match h[tp.x]?, h[tp.y]? with
        | some tx, some ty =>
          if (tx.kind == PROLOG_KIND_VARIABLE && ty.kind != PROLOG_KIND_VARIABLE) ||
             (tx.kind == PROLOG_KIND_VARIABLE && tx.kind != PROLOG_KIND_VARIABLE) then
            let var := if tx.kind == PROLOG_KIND_VARIABLE then tp.x else tp.y
            match substituteStack fuel h rest var with
            | none => none
            | some h' =>
              match _prolog_push_unifier_run allocOk q m tp.x tp.y with
              | none => some (Ending.outOfMemory m)
              | some (q', m') => prolog_unify_loop_run atomBound allocOk fuel h' rest q' m'
          else if (tx.kind == PROLOG_KIND_VARIABLE || tx.kind == PROLOG_KIND_ATOM) &&
                  (ty.kind == PROLOG_KIND_VARIABLE || ty.kind == PROLOG_KIND_ATOM) then
            let xbound :=
              match tx with
              | Term.variable _ b => b
              | _ => atomBound tp.x
            let ybound :=
              match ty with
              | Term.variable _ b => b
              | _ => atomBound tp.y
            if xbound = ybound then
              -- `continue;`
              prolog_unify_loop_run atomBound allocOk fuel h rest q m
            else
              -- nothing follows the `if`: the loop body ends here
              prolog_unify_loop_run atomBound allocOk fuel h rest q m
          else if (tx.kind == PROLOG_KIND_COMPOUND && ty.kind == PROLOG_KIND_COMPOUND) &&
                  tx.arity != 0 && tx.arity == ty.arity then
            -- the pairs go to `stack[rest.length .. rest.length + arity)`
            prolog_unify_loop_run atomBound allocOk fuel h
              (rest ++ List.zipWith TermPair.mk tx.components ty.components) q
              (RunLog.mk m.room m.allocs
                (m.stackPast + (rest.length + tx.arity - PROLOG_STACK_SIZE)) m.unifiersPast)
          else
            -- `q.success = 0; break;`
            some (Ending.returned h (PrologUnification.mk 0 q.unifiers q.size q._cap) m)
        | _, _ => none

/-- Function `prolog_unify(ctx, t1, t2)` with the log of the run: the buffer of `q` is
request number 0 to the allocator, `malloc(sizeof(TermPair) * 64)`, with room
for 64 entries, and the call exits when it is refused; then the loop; after the
loop a failed `q` goes through `prolog_unificationDestroy`. -/
def prolog_unify_run (atomBound : Nat → Option Nat) (allocOk : Nat → Bool) (fuel : Nat)
    (h : Heap) (t1 t2 : Nat) : Option Ending :=
  if allocOk 0 then
    match prolog_unify_loop_run atomBound allocOk fuel h [TermPair.mk t1 t2]
        (PrologUnification.mk 1 (some []) 0 64) (RunLog.mk 64 1 0 0) with
    | some (Ending.returned h' q m) =>
      some (Ending.returned h' (if q.success = 0 then prolog_unificationDestroy q else q) m)
    | r => r
  else some (Ending.outOfMemory (RunLog.mk 0 1 0 0))

@[simp] theorem Term.kind_atom (n : String) : (Term.atom n).kind = PROLOG_KIND_ATOM := rfl
@[simp] theorem Term.kind_variable (n : String) (b : Option Nat) :
    (Term.variable n b).kind = PROLOG_KIND_VARIABLE := rfl
@[simp] theorem Term.kind_compound (n : String) (cs : List Nat) :
    (Term.compound n cs).kind = PROLOG_KIND_COMPOUND := rfl
@[simp] theorem Term.arity_compound (n : String) (cs : List Nat) :
    (Term.compound n cs).arity = cs.length := rfl
@[simp] theorem Term.components_compound (n : String) (cs : List Nat) :
    (Term.compound n cs).components = cs := rfl
@[simp] theorem kind_atom_ne_variable : PROLOG_KIND_ATOM ≠ PROLOG_KIND_VARIABLE := by decide
@[simp] theorem kind_atom_ne_compound : PROLOG_KIND_ATOM ≠ PROLOG_KIND_COMPOUND := by decide
@[simp] theorem kind_variable_ne_atom : PROLOG_KIND_VARIABLE ≠ PROLOG_KIND_ATOM := by decide
@[simp] theorem kind_variable_ne_compound : PROLOG_KIND_VARIABLE ≠ PROLOG_KIND_COMPOUND := by
  decide
@[simp] theorem kind_compound_ne_atom : PROLOG_KIND_COMPOUND ≠ PROLOG_KIND_ATOM := by decide
@[simp] theorem kind_compound_ne_variable : PROLOG_KIND_COMPOUND ≠ PROLOG_KIND_VARIABLE := by
  decide

/-- An empty worklist ends the loop. -/
theorem loop_nil (aB : Nat → Option Nat) (k : Nat) (h : Heap) (q : PrologUnification) :
    prolog_unify_loop aB (k + 1) h [] q = some (Outcome.returned h q) := by
  rw [prolog_unify_loop]; simp

/-- The guard at the top of the loop. -/
theorem loop_overflow (aB : Nat → Option Nat) (k : Nat) (h : Heap) (stack : List TermPair)
    (q : PrologUnification) (hlen : PROLOG_STACK_HEIGHT ≤ stack.length) :
    prolog_unify_loop aB (k + 1) h stack q = some Outcome.overflow := by
  have h0 : stack.length ≠ 0 := by
    have : 0 < PROLOG_STACK_HEIGHT := by decide
    omega
  rw [prolog_unify_loop]; simp [h0, hlen]

/-- First branch: a Variable on the `x` side and anything else on the `y` side. -/
theorem loop_var_nonvar (aB : Nat → Option Nat) (h : Heap) (stack rest : List TermPair)
    (x y : Nat) (q : PrologUnification) (n : String) (bx : Option Nat) (ty : Term) (k : Nat)
    (hs : stack = rest ++ [TermPair.mk x y])
    (hx : h[x]? = some (Term.variable n bx)) (hy : h[y]? = some ty)
    (hk : ty.kind ≠ PROLOG_KIND_VARIABLE)
    (hlen : stack.length < PROLOG_STACK_HEIGHT) :
    prolog_unify_loop aB (k + 1) h stack q =
      (substituteStack k h rest x).bind
        (fun h' => prolog_unify_loop aB k h' rest (_prolog_push_unifier q x y)) := by
  subst hs
  have hlen' : ¬ (PROLOG_STACK_HEIGHT ≤ rest.length + 1) := by
    simp only [List.length_append, List.length_singleton] at hlen; omega
  rw [prolog_unify_loop]
  simp only [List.length_append, List.length_singleton,
    List.getLast?_append, List.getLast?_singleton, List.dropLast_concat]
  simp [hlen', hk, hx, hy]
  cases substituteStack k h rest x <;> rfl

/-- Second branch: both sides are Variables or Atoms and the first branch did
not take the pair.  Whatever the comparison of the two `bound` values says, the
pair is dropped and the loop goes on. -/
theorem loop_flat (aB : Nat → Option Nat) (h : Heap) (stack rest : List TermPair)
    (x y : Nat) (q : PrologUnification) (tx ty : Term) (k : Nat)
    (hs : stack = rest ++ [TermPair.mk x y])
    (hx : h[x]? = some tx) (hy : h[y]? = some ty)
    (hkx : tx.kind = PROLOG_KIND_VARIABLE ∨ tx.kind = PROLOG_KIND_ATOM)
    (hky : ty.kind = PROLOG_KIND_VARIABLE ∨ ty.kind = PROLOG_KIND_ATOM)
    (hnot : ¬ (tx.kind = PROLOG_KIND_VARIABLE ∧ ty.kind ≠ PROLOG_KIND_VARIABLE))
    (hlen : stack.length < PROLOG_STACK_HEIGHT) :
    prolog_unify_loop aB (k + 1) h stack q = prolog_unify_loop aB k h rest q := by
  subst hs
  have hlen' : ¬ (PROLOG_STACK_HEIGHT ≤ rest.length + 1) := by
    simp only [List.length_append, List.length_singleton] at hlen; omega
  rw [prolog_unify_loop]
  simp only [List.length_append, List.length_singleton,
    List.getLast?_append, List.getLast?_singleton, List.dropLast_concat]
  have hnot' : ¬ (tx.kind = PROLOG_KIND_VARIABLE ∧ ¬ ty.kind = PROLOG_KIND_VARIABLE) := hnot
  simp [hx, hy, hlen', hnot', hkx, hky]

/-- Third branch: two Compounds of the same non-zero arity whose component
pairs fit into the `stack` array. -/
theorem loop_compound (aB : Nat → Option Nat) (h : Heap) (stack rest : List TermPair)
    (x y : Nat) (q : PrologUnification) (nx ny : String) (cx cy : List Nat) (k : Nat)
    (hs : stack = rest ++ [TermPair.mk x y])
    (hx : h[x]? = some (Term.compound nx cx)) (hy : h[y]? = some (Term.compound ny cy))
    (h0 : cx.length ≠ 0) (hxy : cx.length = cy.length)
    (hfit : rest.length + cx.length ≤ PROLOG_STACK_SIZE)
    (hlen : stack.length < PROLOG_STACK_HEIGHT) :
    prolog_unify_loop aB (k + 1) h stack q =
      prolog_unify_loop aB k h (rest ++ List.zipWith TermPair.mk cx cy) q := by
  subst hs
  have hlen' : ¬ (PROLOG_STACK_HEIGHT ≤ rest.length + 1) := by
    simp only [List.length_append, List.length_singleton] at hlen; omega
  have hfit' : ¬ (PROLOG_STACK_SIZE < rest.length + cx.length) := by omega
  rw [prolog_unify_loop]
  simp only [List.length_append, List.length_singleton,
    List.getLast?_append, List.getLast?_singleton, List.dropLast_concat]
  have hcy : cy ≠ [] := by
    intro hc; rw [hc] at hxy; exact h0 (by simpa using hxy)
  rw [hxy] at hfit'
  simp [hx, hy, hlen', hfit', hxy, hcy]

/-- Third branch, when the component pairs do not fit: the push loop has no
bounds test and stores past the end of `stack`. -/
theorem loop_compound_outOfBounds (aB : Nat → Option Nat) (h : Heap)
    (stack rest : List TermPair)
    (x y : Nat) (q : PrologUnification) (nx ny : String) (cx cy : List Nat) (k : Nat)
    (hs : stack = rest ++ [TermPair.mk x y])
    (hx : h[x]? = some (Term.compound nx cx)) (hy : h[y]? = some (Term.compound ny cy))
    (h0 : cx.length ≠ 0) (hxy : cx.length = cy.length)
    (hfit : PROLOG_STACK_SIZE < rest.length + cx.length)
    (hlen : stack.length < PROLOG_STACK_HEIGHT) :
    prolog_unify_loop aB (k + 1) h stack q = some Outcome.outOfBounds := by
  subst hs
  have hlen' : ¬ (PROLOG_STACK_HEIGHT ≤ rest.length + 1) := by
    simp only [List.length_append, List.length_singleton] at hlen; omega
  rw [prolog_unify_loop]
  simp only [List.length_append, List.length_singleton,
    List.getLast?_append, List.getLast?_singleton, List.dropLast_concat]
  have hcy : cy ≠ [] := by
    intro hc; rw [hc] at hxy; exact h0 (by simpa using hxy)
  rw [hxy] at hfit
  simp [hx, hy, hlen', hfit, hxy, hcy]

/-- Last branch: every other pair sets `success = 0` and leaves the loop. -/
theorem loop_mismatch (aB : Nat → Option Nat) (h : Heap) (stack rest : List TermPair)
    (x y : Nat) (q : PrologUnification) (tx ty : Term) (k : Nat)
    (hs : stack = rest ++ [TermPair.mk x y])
    (hx : h[x]? = some tx) (hy : h[y]? = some ty)
    (h1 : ¬ (tx.kind = PROLOG_KIND_VARIABLE ∧ ty.kind ≠ PROLOG_KIND_VARIABLE))
    (h2 : ¬ ((tx.kind = PROLOG_KIND_VARIABLE ∨ tx.kind = PROLOG_KIND_ATOM) ∧
             (ty.kind = PROLOG_KIND_VARIABLE ∨ ty.kind = PROLOG_KIND_ATOM)))
    (h3 : ¬ (tx.kind = PROLOG_KIND_COMPOUND ∧ ty.kind = PROLOG_KIND_COMPOUND ∧
             tx.arity ≠ 0 ∧ tx.arity = ty.arity))
    (hlen : stack.length < PROLOG_STACK_HEIGHT) :
    prolog_unify_loop aB (k + 1) h stack q =
      some (Outcome.returned h (PrologUnification.mk 0 q.unifiers q.size q._cap)) := by
  subst hs
  have hlen' : ¬ (PROLOG_STACK_HEIGHT ≤ rest.length + 1) := by
    simp only [List.length_append, List.length_singleton] at hlen; omega
  rw [prolog_unify_loop]
  simp only [List.length_append, List.length_singleton,
    List.getLast?_append, List.getLast?_singleton, List.dropLast_concat]
  have h1' : ¬ (tx.kind = PROLOG_KIND_VARIABLE ∧ ¬ ty.kind = PROLOG_KIND_VARIABLE) := h1
  have h3' : ¬ (((tx.kind = PROLOG_KIND_COMPOUND ∧ ty.kind = PROLOG_KIND_COMPOUND) ∧
      ¬ tx.arity = 0) ∧ tx.arity = ty.arity) := fun hc =>
    h3 ⟨hc.1.1.1, hc.1.1.2, hc.1.2, hc.2⟩
  simp [hx, hy, hlen', h1', h2, h3']

/-! ## What `_prolog_replaceVars` can change -/

theorem onlyBinds_refl (w : Nat) (h : Heap) : OnlyBinds w h h := fun _ => Or.inl rfl

theorem onlyBinds_trans {w : Nat} {h h' h'' : Heap} (h1 : OnlyBinds w h h')
    (h2 : OnlyBinds w h' h'') : OnlyBinds w h h'' := by
  intro a
  rcases h1 a with e1 | ⟨n, b, e1, e1'⟩
  · rcases h2 a with e2 | ⟨n, b, e2, e2'⟩
    · exact Or.inl (e2.trans e1)
    · exact Or.inr ⟨n, b, e1 ▸ e2, e2'⟩
  · rcases h2 a with e2 | ⟨n', b', e2, e2'⟩
    · exact Or.inr ⟨n, b, e1, e2.trans e1'⟩
    · rw [e1'] at e2
      injection e2 with e2
      injection e2 with hn _
      subst hn
      exact Or.inr ⟨n, b, e1, e2'⟩

/-- A fold of steps that each satisfy `OnlyBinds w` satisfies it as a whole. -/
theorem onlyBinds_foldlM {α : Type} (w : Nat) (f : Heap → α → Option Heap)
    (hf : ∀ h x h', f h x = some h' → OnlyBinds w h h') :
    ∀ (l : List α) (h h' : Heap), l.foldlM f h = some h' → OnlyBinds w h h' := by
  intro l
  induction l with
  | nil =>
    intro h h' e
    simp only [List.foldlM, pure] at e
    injection e with e
    subst e
    exact onlyBinds_refl w h
  | cons x xs ih =>
    intro h h' e
    simp only [List.foldlM, bind, Option.bind] at e
    cases hx : f h x with
    | none => rw [hx] at e; simp at e
    | some h1 =>
      rw [hx] at e
      exact onlyBinds_trans (hf h x h1 hx) (ih h1 h' e)

theorem replaceVars_onlyBinds (w : Nat) :
    ∀ (fuel : Nat) (h : Heap) (inp : Nat) (h' : Heap),
      _prolog_replaceVars fuel h inp w = some h' → OnlyBinds w h h' := by
  intro fuel
  induction fuel with
  | zero => intro h inp h' e; simp [_prolog_replaceVars] at e
  | succ k ih =>
    intro h inp h' e
    rw [_prolog_replaceVars] at e
    cases hi : h[inp]? with
    | none => rw [hi] at e; simp at e
    | some t =>
      rw [hi] at e
      rcases t with n | ⟨n, b⟩ | ⟨n, cs⟩
      · simp only at e
        injection e with e
        subst e
        exact onlyBinds_refl w h
      · simp only at e
        injection e with e
        subst e
        intro a
        by_cases ha : inp = a
        · subst ha
          right
          refine ⟨n, b, hi, ?_⟩
          have hlt : inp < h.length := by
            rcases Nat.lt_or_ge inp h.length with hl | hl
            · exact hl
            · rw [List.getElem?_eq_none hl] at hi; simp at hi
          simp [List.getElem?_set, hlt]
        · left
          simp [List.getElem?_set, ha]
      · simp only at e
        exact onlyBinds_foldlM w (fun h' c => _prolog_replaceVars k h' c w)
          (fun h x h' hx => ih h x h' hx) cs h h' e

theorem substituteStack_onlyBinds (fuel : Nat) (h : Heap) (stack : List TermPair) (var : Nat)
    (h' : Heap) (e : substituteStack fuel h stack var = some h') : OnlyBinds var h h' := by
  refine onlyBinds_foldlM var _ ?_ stack h h' e
  intro h0 tp h1 e1
  cases hx : _prolog_replaceVars fuel h0 tp.x var with
  | none => rw [hx] at e1; simp at e1
  | some h2 =>
    rw [hx] at e1
    exact onlyBinds_trans (replaceVars_onlyBinds var fuel h0 tp.x h2 hx)
      (replaceVars_onlyBinds var fuel h2 tp.y h1 e1)

@[simp] theorem substituteStack_nil (fuel : Nat) (h : Heap) (var : Nat) :
    substituteStack fuel h [] var = some h := rfl

/-! ## Unification on Variables, Atoms and Compounds -/

/-- C2, the code at the failing input and at every other pair of Atoms: for
all names `n1` and `n2`, equal or not, `prolog_unify(Atom n1, Atom n2)` returns
success with an empty result list. -/
theorem unify_atoms_always_succeeds (aB : Nat → Option Nat) (h : Heap) (t1 t2 : Nat)
    (n1 n2 : String) (fuel : Nat)
    (h1 : h[t1]? = some (Term.atom n1)) (h2 : h[t2]? = some (Term.atom n2)) :
    prolog_unify aB (fuel + 2) h t1 t2 =
      some (Outcome.returned h (PrologUnification.mk 1 (some []) 0 64)) := by
  unfold prolog_unify
  rw [loop_flat aB h [TermPair.mk t1 t2] [] t1 t2 _ (Term.atom n1) (Term.atom n2) (fuel + 1) rfl
    h1 h2 (by simp) (by simp) (by simp)
      (by simp [PROLOG_STACK_HEIGHT, PROLOG_STACK_SIZE])]
  rw [loop_nil]
  rfl

/-- C2, the failing input: `unify(Atom "a", Atom "b")` returns success. -/
theorem unify_atoms_always_succeeds_witness :
    heapAB[0]? = some (Term.atom "a") ∧ heapAB[1]? = some (Term.atom "b") ∧ "a" ≠ "b" ∧
    prolog_unify nullBound (0 + 2) heapAB 0 1 =
      some (Outcome.returned heapAB (PrologUnification.mk 1 (some []) 0 64)) :=
  ⟨rfl, rfl, by decide,
    unify_atoms_always_succeeds nullBound heapAB 0 1 "a" "b" 0 rfl rfl⟩

/-- The call `prolog_unify(f(X), g(X))` evaluated: it returns success with no
bindings although the functor names `f` and `g` differ. -/
theorem unify_fX_gX_succeeds :
    prolog_unify nullBound 10 heapFG 1 2 =
        some (Outcome.returned heapFG (PrologUnification.mk 1 (some []) 0 64)) ∧
      heapFG[1]? = some (Term.compound "f" [0]) ∧ heapFG[2]? = some (Term.compound "g" [0]) ∧
      (Term.compound "f" [0]).name ≠ (Term.compound "g" [0]).name := by
  decide

/-- C3, the code at the failing input and at every pair of functor names: for
all names `f` and `g` and every Variable `X`, `prolog_unify(f(X), g(X))`
returns success with no bindings, where the claim asks for failure whenever `f`
and `g` differ; the Compound branch of the loop tests the kinds and the
arities and never reads a name.  The arity half of the claim holds: if
`prolog_unify(c1, c2)` succeeds on two Compounds, they have the same arity
(and that arity is not zero). -/
theorem unify_compounds_success_same_arity (aB : Nat → Option Nat) (fuel : Nat) (h : Heap)
    (t1 t2 : Nat) (n1 n2 : String) (c1 c2 : List Nat) (h' : Heap) (q : PrologUnification)
    (h1 : h[t1]? = some (Term.compound n1 c1)) (h2 : h[t2]? = some (Term.compound n2 c2))
    (hr : prolog_unify aB fuel h t1 t2 = some (Outcome.returned h' q))
    (hs : q.success = 1) :
    (c1.length = c2.length ∧ c1.length ≠ 0) ∧
      ∀ (hp : Heap) (tX tf tg : Nat) (xn f g : String) (bnd : Option Nat) (k : Nat),
        hp[tX]? = some (Term.variable xn bnd) →
        hp[tf]? = some (Term.compound f [tX]) → hp[tg]? = some (Term.compound g [tX]) →
        prolog_unify aB (k + 3) hp tf tg =
          some (Outcome.returned hp (PrologUnification.mk 1 (some []) 0 64)) := by
  constructor
  · by_contra hA
    cases fuel with
    | zero => simp [prolog_unify, prolog_unify_loop] at hr
    | succ k =>
      unfold prolog_unify at hr
      rw [loop_mismatch aB h [TermPair.mk t1 t2] [] t1 t2 _ (Term.compound n1 c1)
        (Term.compound n2 c2) k rfl h1 h2 (by simp) (by simp)
        (by
          simp only [Term.kind_compound, Term.arity_compound, true_and]
          intro hc
          exact hA ⟨hc.2, hc.1⟩)
        (by simp [PROLOG_STACK_HEIGHT, PROLOG_STACK_SIZE])] at hr
      simp only [prolog_unificationDestroy, if_true] at hr
      injection hr with hr
      injection hr with _ hq
      rw [← hq] at hs
      simp at hs
  · intro hp tX tf tg xn f g bnd k hX hf hg
    unfold prolog_unify
    rw [loop_compound aB hp [TermPair.mk tf tg] [] tf tg _ f g [tX] [tX] (k + 2) rfl
      hf hg (by simp) rfl (by simp [PROLOG_STACK_SIZE])
      (by simp [PROLOG_STACK_HEIGHT, PROLOG_STACK_SIZE])]
    rw [show ([] ++ List.zipWith TermPair.mk [tX] [tX]) = [] ++ [TermPair.mk tX tX] from rfl]
    rw [loop_flat aB hp _ [] tX tX _ (Term.variable xn bnd) (Term.variable xn bnd) (k + 1) rfl
      hX hX (by simp) (by simp) (by simp)
      (by simp [PROLOG_STACK_HEIGHT, PROLOG_STACK_SIZE])]
    rw [loop_nil]
    rfl

/-- C3, witness: the failing input `prolog_unify(f(X), g(X))`. -/
theorem unify_compounds_success_same_arity_witness :
    heapFG[1]? = some (Term.compound "f" [0]) ∧ heapFG[2]? = some (Term.compound "g" [0]) ∧
    prolog_unify nullBound 10 heapFG 1 2 =
      some (Outcome.returned heapFG (PrologUnification.mk 1 (some []) 0 64)) ∧
    (PrologUnification.mk 1 (some []) 0 64).success = 1 ∧
    ([0] : List Nat).length = ([0] : List Nat).length ∧ ([0] : List Nat).length ≠ 0 :=
  ⟨rfl, rfl, by decide, rfl,
    (unify_compounds_success_same_arity nullBound 10 heapFG 1 2 "f" "g" [0] [0] heapFG
      (PrologUnification.mk 1 (some []) 0 64) rfl rfl (by decide) rfl).1⟩

/-- C4, the code at the failing input and at every Variable `X` and Compound
`c`: `prolog_unify(X, c)` succeeds and records the pair `(X, c)`, while
`prolog_unify(c, X)` fails.  The first branch of the loop tests only the `x`
side for a Variable. -/
theorem unify_var_compound_not_symmetric (aB : Nat → Option Nat) (h : Heap) (tX tc : Nat)
    (xn cn : String) (bnd : Option Nat) (cs : List Nat) (fuel : Nat)
    (hX : h[tX]? = some (Term.variable xn bnd)) (hc : h[tc]? = some (Term.compound cn cs)) :
    prolog_unify aB (fuel + 2) h tX tc =
        some (Outcome.returned h (PrologUnification.mk 1 (some [TermPair.mk tX tc]) 1 64)) ∧
      prolog_unify aB (fuel + 2) h tc tX =
        some (Outcome.returned h (PrologUnification.mk 0 none 0 0)) := by
  constructor
  · unfold prolog_unify
    rw [loop_var_nonvar aB h [TermPair.mk tX tc] [] tX tc _ xn bnd (Term.compound cn cs)
      (fuel + 1) rfl hX hc (by simp) (by simp [PROLOG_STACK_HEIGHT, PROLOG_STACK_SIZE])]
    simp only [substituteStack_nil, Option.bind]
    rw [loop_nil]
    rfl
  · unfold prolog_unify
    rw [loop_mismatch aB h [TermPair.mk tc tX] [] tc tX _ (Term.compound cn cs)
      (Term.variable xn bnd) (fuel + 1) rfl hc hX (by simp) (by simp) (by simp)
      (by simp [PROLOG_STACK_HEIGHT, PROLOG_STACK_SIZE])]
    rfl

/-- C4, the failing input: `unify(X, f(a))` succeeds with the binding
`(X, f(a))` and `unify(f(a), X)` fails. -/
theorem unify_var_compound_not_symmetric_witness :
    heapXfa[0]? = some (Term.variable "X" none) ∧
    heapXfa[2]? = some (Term.compound "f" [1]) ∧
    prolog_unify nullBound (0 + 2) heapXfa 0 2 =
      some (Outcome.returned heapXfa (PrologUnification.mk 1 (some [TermPair.mk 0 2]) 1 64)) ∧
    prolog_unify nullBound (0 + 2) heapXfa 2 0 =
      some (Outcome.returned heapXfa (PrologUnification.mk 0 none 0 0)) :=
  ⟨rfl, rfl, unify_var_compound_not_symmetric nullBound heapXfa 0 2 "X" "f" none [1] 0 rfl rfl⟩

/-! ## The arena allocator -/

/-- The mask `-align` for a power of two keeps exactly the bits `k .. 63`. -/
theorem testBit_neg_two_pow (k : Nat) (hk : k < 64) (i : Nat) :
    (2 ^ 64 - 2 ^ k).testBit i = (decide (k ≤ i) && decide (i < 64)) := by
  have hM : 2 ^ 64 - 2 ^ k = 2 ^ k * (2 ^ (64 - k) - 1) := by
    have h64 : (2 : Nat) ^ 64 = 2 ^ k * 2 ^ (64 - k) := by
      rw [← Nat.pow_add]; congr 1; omega
    rw [Nat.mul_sub, Nat.mul_one, ← h64]
  rw [hM, Nat.testBit_mul_pow_two, Nat.testBit_two_pow_sub_one]
  by_cases h1 : k ≤ i
  · by_cases h2 : i < 64
    · have : i - k < 64 - k := by omega
      simp [h1, h2, this]
    · have : ¬ (i - k < 64 - k) := by omega
      simp [h1, h2, this]
  · simp [h1]

/-- Masking with `-2^k` rounds down to a multiple of `2^k`. -/
theorem and_neg_two_pow (m k : Nat) (hk : k < 64) (hm : m < 2 ^ 64) :
    m &&& (2 ^ 64 - 2 ^ k) = m / 2 ^ k * 2 ^ k := by
  apply Nat.eq_of_testBit_eq
  intro i
  rw [Nat.testBit_and, testBit_neg_two_pow k hk, Nat.mul_comm, Nat.testBit_mul_pow_two,
    ← Nat.shiftRight_eq_div_pow, Nat.testBit_shiftRight]
  by_cases h1 : k ≤ i
  · by_cases h2 : i < 64
    · have : k + (i - k) = i := by omega
      simp [h1, h2, this]
    · have hlt : m < 2 ^ i :=
        lt_of_lt_of_le hm (Nat.pow_le_pow_right (by decide) (by omega))
      have : k + (i - k) = i := by omega
      simp [h1, h2, this, Nat.testBit_lt_two_pow hlt]
  · simp [h1]

/-- Function `_prolog_align` for a power-of-two alignment, when `n + align - 1` does
not wrap: the offset is rounded up to the next multiple of the alignment. -/
theorem prolog_align_eq (n k : Nat) (hk : k < 64) (hn : n + 2 ^ k - 1 < 2 ^ 64) :
    _prolog_align n (2 ^ k) = (n + 2 ^ k - 1) / 2 ^ k * 2 ^ k := by
  have hpos : 0 < 2 ^ k := Nat.two_pow_pos k
  have hlt : 2 ^ k < 2 ^ 64 := Nat.pow_lt_pow_right (by decide) hk
  have h1 : (n + 2 ^ k + (2 ^ 64 - 1)) % 2 ^ 64 = n + 2 ^ k - 1 := by
    have : n + 2 ^ k + (2 ^ 64 - 1) = (n + 2 ^ k - 1) + 2 ^ 64 := by omega
    rw [this, Nat.add_mod_right, Nat.mod_eq_of_lt hn]
  have h2 : (2 ^ 64 - 2 ^ k % 2 ^ 64) % 2 ^ 64 = 2 ^ 64 - 2 ^ k := by
    rw [Nat.mod_eq_of_lt hlt, Nat.mod_eq_of_lt (by omega)]
  unfold _prolog_align SIZE_MODULUS
  rw [h1, h2, and_neg_two_pow _ k hk hn]

/-- Function `prolog_alloc` reports out-of-memory exactly when the new `bump` is not
below `PROLOG_ARENA_SIZE`. -/
theorem prolog_alloc_eq_none (a : PrologArena) (bytes align : Nat) :
    prolog_alloc a bytes align = none ↔
      PROLOG_ARENA_SIZE ≤ (_prolog_align a.bump align + bytes) % SIZE_MODULUS := by
  unfold prolog_alloc
  simp only [PROLOG_CATCH_OOM]
  by_cases hc : PROLOG_ARENA_SIZE ≤ (_prolog_align a.bump align + bytes) % SIZE_MODULUS
  · simp [hc]
  · simp [hc]

/-- C9, the claim as written, refuted: on a fresh arena a request of exactly
`PROLOG_ARENA_SIZE` bytes ends at the capacity, not beyond it, and is answered
with out-of-memory. -/
theorem alloc_ending_at_capacity_is_oom :
    prolog_alloc (PrologArena.mk emptyBuf 0) 262144 1 = none ∧
      _prolog_align 0 1 + 262144 = PROLOG_ARENA_SIZE ∧
      ¬ (_prolog_align 0 1 + 262144 > PROLOG_ARENA_SIZE) := by
  refine ⟨?_, by decide, by decide⟩
  rw [prolog_alloc_eq_none]
  decide

/-- C9, as amended: for every arena, size and power-of-two alignment for which
neither `bump + align - 1` nor the aligned offset plus the size wraps around,
`prolog_alloc` reports out-of-memory if and only if the aligned offset (the
least multiple of the alignment that is not below `bump`) plus the size is
greater than or equal to `PROLOG_ARENA_SIZE`; so a request that would end
exactly at the capacity fails. -/
theorem alloc_oom_iff (a : PrologArena) (bytes k : Nat) (hk : k < 64)
    (hb : a.bump + 2 ^ k - 1 < 2 ^ 64)
    (hw : (a.bump + 2 ^ k - 1) / 2 ^ k * 2 ^ k + bytes < 2 ^ 64) :
    _prolog_align a.bump (2 ^ k) = (a.bump + 2 ^ k - 1) / 2 ^ k * 2 ^ k ∧
    (prolog_alloc a bytes (2 ^ k) = none ↔
      PROLOG_ARENA_SIZE ≤ (a.bump + 2 ^ k - 1) / 2 ^ k * 2 ^ k + bytes) ∧
    ((a.bump + 2 ^ k - 1) / 2 ^ k * 2 ^ k + bytes = PROLOG_ARENA_SIZE →
      prolog_alloc a bytes (2 ^ k) = none) := by
  have key : prolog_alloc a bytes (2 ^ k) = none ↔
      PROLOG_ARENA_SIZE ≤ (a.bump + 2 ^ k - 1) / 2 ^ k * 2 ^ k + bytes := by
    rw [prolog_alloc_eq_none, prolog_align_eq a.bump k hk hb]
    unfold SIZE_MODULUS
    rw [Nat.mod_eq_of_lt hw]
  refine ⟨prolog_align_eq a.bump k hk hb, key, ?_⟩
  intro he
  rw [key, he]

/-- C9, witness: the amended statement on a fresh arena with alignment 1 and a
request that would end exactly at the capacity. -/
theorem alloc_oom_iff_witness :
    (0 : Nat) < 64 ∧ (PrologArena.mk emptyBuf 0).bump + 2 ^ 0 - 1 < 2 ^ 64 ∧
    ((PrologArena.mk emptyBuf 0).bump + 2 ^ 0 - 1) / 2 ^ 0 * 2 ^ 0 + 262144 < 2 ^ 64 ∧
    ((PrologArena.mk emptyBuf 0).bump + 2 ^ 0 - 1) / 2 ^ 0 * 2 ^ 0 + 262144 = PROLOG_ARENA_SIZE ∧
    prolog_alloc (PrologArena.mk emptyBuf 0) 262144 (2 ^ 0) = none :=
  ⟨by decide, by decide, by decide, by decide,
    (alloc_oom_iff (PrologArena.mk emptyBuf 0) 262144 0 (by decide) (by decide)
      (by decide)).2.2 (by decide)⟩

/-! ## Ground terms -/

theorem GroundForest.length_le {h : Heap} {ts : List Nat} {n : Nat}
    (g : GroundForest h ts n) : ts.length ≤ n := by
  induction g with
  | nil => simp
  | atom t name ts n _ _ ih => simp only [List.length_cons]; omega
  | compound t name cs ts m n _ _ _ _ _ ih => simp only [List.length_cons]; omega

theorem GroundForest.append {h : Heap} {as bs : List Nat} {m n : Nat}
    (ga : GroundForest h as m) (gb : GroundForest h bs n) :
    GroundForest h (as ++ bs) (m + n) := by
  induction ga with
  | nil => simpa using gb
  | atom t name ts k ht _ ih =>
    have := GroundForest.atom t name (ts ++ bs) (k + n) ht ih
    rw [show k + 1 + n = k + n + 1 by omega]
    exact this
  | compound t name cs ts k l ht hne gcs _ _ ih =>
    have := GroundForest.compound t name cs (ts ++ bs) k (l + n) ht hne gcs ih
    rw [show k + l + 1 + n = k + (l + n) + 1 by omega]
    exact this

theorem GroundForest.head_tail {h : Heap} {t : Nat} {ts : List Nat} {N : Nat}
    (g : GroundForest h (t :: ts) N) :
    ∃ k n, GroundForest h [t] k ∧ GroundForest h ts n ∧ N = k + n := by
  cases g with
  | atom _ name _ n ht gts =>
    exact ⟨1, n, GroundForest.atom t name [] 0 ht GroundForest.nil, gts, by omega⟩
  | compound _ name cs _ m n ht hne gcs gts =>
    exact ⟨m + 0 + 1, n, GroundForest.compound t name cs [] m 0 ht hne gcs GroundForest.nil,
      gts, by omega⟩

theorem GroundForest.reverse {h : Heap} :
    ∀ (ts : List Nat) (N : Nat), GroundForest h ts N → GroundForest h ts.reverse N := by
  intro ts
  induction ts with
  | nil => intro N g; simpa using g
  | cons t ts ih =>
    intro N g
    obtain ⟨k, n, g1, g2, rfl⟩ := g.head_tail
    rw [List.reverse_cons, Nat.add_comm]
    exact (ih n g2).append g1

theorem zipWith_mk_self (cs : List Nat) : List.zipWith TermPair.mk cs cs = cs.map diagPair := by
  induction cs with
  | nil => rfl
  | cons c cs ih => simp [List.zipWith, ih, diagPair]

/-- The worklist loop on pairs `(t, t)` of ground terms with fewer than
`PROLOG_STACK_HEIGHT` nodes in all: it runs to the end and changes nothing. -/
theorem loop_ground (aB : Nat → Option Nat) (h : Heap) (q : PrologUnification) :
    ∀ (N : Nat) (ts : List Nat) (fuel : Nat), GroundForest h ts N →
      N < PROLOG_STACK_HEIGHT → N < fuel →
      prolog_unify_loop aB fuel h (ts.map diagPair).reverse q = some (Outcome.returned h q) := by
  intro N
  induction N using Nat.strong_induction_on with
  | _ N ih =>
    intro ts fuel g hN hfuel
    obtain ⟨k, rfl⟩ : ∃ k, fuel = k + 1 := ⟨fuel - 1, by omega⟩
    cases g with
    | nil => simpa using loop_nil aB k h q
    | atom t name ts n ht gts =>
      have hlen := gts.length_le
      rw [loop_flat aB h _ (ts.map diagPair).reverse t t q (Term.atom name) (Term.atom name) k
        (by simp [diagPair]) ht ht (by simp) (by simp) (by simp)
        (by simp only [List.length_reverse, List.length_map, List.length_cons]; omega)]
      exact ih n (by omega) ts k gts (by omega) (by omega)
    | compound t name cs ts m n ht hne gcs gts =>
      have hlen := gts.length_le
      have hlenc := gcs.length_le
      have hH : PROLOG_STACK_HEIGHT = PROLOG_STACK_SIZE := rfl
      rw [loop_compound aB h _ (ts.map diagPair).reverse t t q name name cs cs k
        (by simp [diagPair]) ht ht (by simpa using hne) rfl
        (by simp only [List.length_reverse, List.length_map]; omega)
        (by simp only [List.length_reverse, List.length_map, List.length_cons]; omega)]
      have hst : (ts.map diagPair).reverse ++ List.zipWith TermPair.mk cs cs =
          ((cs.reverse ++ ts).map diagPair).reverse := by
        rw [zipWith_mk_self]; simp
      rw [hst]
      exact ih (m + n) (by omega) (cs.reverse ++ ts) k
        ((GroundForest.reverse cs m gcs).append gts) (by omega) (by omega)

/-- The worklist loop on pairs `(t, t)` of ground terms of any size: it never
takes the failure branch and never records a pair; it either runs to the end or
stops at the worklist bound. -/
theorem loop_ground_outcomes (aB : Nat → Option Nat) (h : Heap) (q : PrologUnification) :
    ∀ (N : Nat) (ts : List Nat) (fuel : Nat), GroundForest h ts N → N < fuel →
      prolog_unify_loop aB fuel h (ts.map diagPair).reverse q = some (Outcome.returned h q) ∨
      prolog_unify_loop aB fuel h (ts.map diagPair).reverse q = some Outcome.overflow ∨
      prolog_unify_loop aB fuel h (ts.map diagPair).reverse q = some Outcome.outOfBounds := by
  intro N
  induction N using Nat.strong_induction_on with
  | _ N ih =>
    intro ts fuel g hfuel
    obtain ⟨k, rfl⟩ : ∃ k, fuel = k + 1 := ⟨fuel - 1, by omega⟩
    by_cases hov : PROLOG_STACK_HEIGHT ≤ ((ts.map diagPair).reverse).length
    · exact Or.inr (Or.inl (loop_overflow aB k h _ q hov))
    · cases g with
      | nil => exact Or.inl (by simpa using loop_nil aB k h q)
      | atom t name ts n ht gts =>
        rw [loop_flat aB h _ (ts.map diagPair).reverse t t q (Term.atom name) (Term.atom name) k
          (by simp [diagPair]) ht ht (by simp) (by simp) (by simp) (by omega)]
        exact ih n (by omega) ts k gts (by omega)
      | compound t name cs ts m n ht hne gcs gts =>
        by_cases hfit : (ts.map diagPair).reverse.length + cs.length ≤ PROLOG_STACK_SIZE
        · rw [loop_compound aB h _ (ts.map diagPair).reverse t t q name name cs cs k
            (by simp [diagPair]) ht ht (by simpa using hne) rfl hfit (by omega)]
          have hst : (ts.map diagPair).reverse ++ List.zipWith TermPair.mk cs cs =
              ((cs.reverse ++ ts).map diagPair).reverse := by
            rw [zipWith_mk_self]; simp
          rw [hst]
          exact ih (m + n) (by omega) (cs.reverse ++ ts) k
            ((GroundForest.reverse cs m gcs).append gts) (by omega)
        · exact Or.inr (Or.inr (loop_compound_outOfBounds aB h _ (ts.map diagPair).reverse t t q
            name name cs cs k (by simp [diagPair]) ht ht (by simpa using hne) rfl
            (by omega) (by omega)))

theorem groundForest_replicate (h : Heap) (name : String) (h0 : h[0]? = some (Term.atom name)) :
    ∀ n : Nat, GroundForest h (List.replicate n 0) n := by
  intro n
  induction n with
  | zero => exact GroundForest.nil
  | succ n ih => exact GroundForest.atom 0 name _ n h0 ih

theorem groundForest_heapWide (n : Nat) (hn : n ≠ 0) : GroundForest (heapWide n) [1] (n + 1) := by
  have hne : List.replicate n 0 ≠ [] := by
    intro hc
    have := congrArg List.length hc
    rw [List.length_replicate] at this
    exact hn this
  exact GroundForest.compound 1 "f" (List.replicate n 0) [] n 0 rfl hne
    (groundForest_replicate _ "a" rfl n) GroundForest.nil

/-- Term `f(a, ..., a)` against itself when the `n` component pairs fill the
worklist up to the guard: the guard of the second iteration fires. -/
theorem unify_heapWide_overflow (aB : Nat → Option Nat) (n fuel : Nat)
    (h1 : PROLOG_STACK_HEIGHT ≤ n) (h2 : n ≤ PROLOG_STACK_SIZE) :
    prolog_unify aB (fuel + 2) (heapWide n) 1 1 = some Outcome.overflow := by
  have hpos : 0 < PROLOG_STACK_HEIGHT := by decide
  unfold prolog_unify
  rw [loop_compound aB (heapWide n) [TermPair.mk 1 1] [] 1 1 _ "f" "f"
    (List.replicate n 0) (List.replicate n 0) (fuel + 1) rfl rfl rfl
    (by rw [List.length_replicate]; omega) rfl
    (by rw [List.length_replicate]; simpa using h2)
    (by simp [PROLOG_STACK_HEIGHT, PROLOG_STACK_SIZE])]
  rw [loop_overflow aB fuel (heapWide n) _ _
    (by rw [List.nil_append, List.length_zipWith, List.length_replicate]; simpa using h1)]

/-- Term `f(a, ..., a)` against itself when the `n` component pairs do not fit
into the `stack` array. -/
theorem unify_heapWide_outOfBounds (aB : Nat → Option Nat) (n fuel : Nat)
    (h1 : PROLOG_STACK_SIZE < n) :
    prolog_unify aB (fuel + 1) (heapWide n) 1 1 = some Outcome.outOfBounds := by
  unfold prolog_unify
  rw [loop_compound_outOfBounds aB (heapWide n) [TermPair.mk 1 1] [] 1 1 _ "f" "f"
    (List.replicate n 0) (List.replicate n 0) fuel rfl rfl rfl
    (by rw [List.length_replicate]; omega) rfl
    (by rw [List.length_replicate]; simpa using h1)
    (by simp [PROLOG_STACK_HEIGHT, PROLOG_STACK_SIZE])]

/-- C5, the claim as written, refuted: `f(a, ..., a)` with 1024 arguments is a
ground term built from Atoms and a Compound of arity 1024, and unifying it with
itself ends in the stack-overflow exit instead of succeeding. -/
theorem unify_wide_ground_term_overflows :
    GroundForest (heapWide 1024) [1] 1025 ∧
      prolog_unify nullBound 2000 (heapWide 1024) 1 1 = some Outcome.overflow :=
  ⟨groundForest_heapWide 1024 (by decide),
    unify_heapWide_overflow nullBound 1024 1998 (by decide) (by decide)⟩

/-- C5, as amended: for every ground term `t` built from Atoms and Compounds
of arity at least 1, `prolog_unify(t, t)` never reports failure and never
records a binding: it succeeds with an empty binding list and changes no node,
unless the bound of the worklist is met first (the stack-overflow exit, or a
push past the end of `stack`).  It does succeed whenever `t` has fewer than
`PROLOG_STACK_HEIGHT` (1024) nodes. -/
theorem unify_ground_refl (aB : Nat → Option Nat) (h : Heap) (t n fuel : Nat)
    (hg : GroundForest h [t] n) (hfuel : n < fuel) :
    (prolog_unify aB fuel h t t =
        some (Outcome.returned h (PrologUnification.mk 1 (some []) 0 64)) ∨
      prolog_unify aB fuel h t t = some Outcome.overflow ∨
      prolog_unify aB fuel h t t = some Outcome.outOfBounds) ∧
    (n < PROLOG_STACK_HEIGHT →
      prolog_unify aB fuel h t t =
        some (Outcome.returned h (PrologUnification.mk 1 (some []) 0 64))) := by
  constructor
  · have := loop_ground_outcomes aB h (PrologUnification.mk 1 (some []) 0 64) n [t] fuel hg hfuel
    simp only [List.map, List.reverse_cons, List.reverse_nil, List.nil_append, diagPair] at this
    unfold prolog_unify
    rcases this with e | e | e <;> rw [e]
    · exact Or.inl rfl
    · exact Or.inr (Or.inl rfl)
    · exact Or.inr (Or.inr rfl)
  · intro hn
    unfold prolog_unify
    have := loop_ground aB h (PrologUnification.mk 1 (some []) 0 64) n [t] fuel hg hn hfuel
    simp only [List.map, List.reverse_cons, List.reverse_nil, List.nil_append, diagPair] at this
    rw [this]
    rfl

/-- C5, witness: the amended statement applied to `f(a, a, a)`. -/
theorem unify_ground_refl_witness :
    GroundForest (heapWide 3) [1] 4 ∧ 4 < 5 ∧ 4 < PROLOG_STACK_HEIGHT ∧
    prolog_unify nullBound 5 (heapWide 3) 1 1 =
      some (Outcome.returned (heapWide 3) (PrologUnification.mk 1 (some []) 0 64)) :=
  ⟨groundForest_heapWide 3 (by decide), by decide, by decide,
    (unify_ground_refl nullBound (heapWide 3) 1 4 5 (groundForest_heapWide 3 (by decide))
      (by decide)).2 (by decide)⟩

/-- C8, the code at the failing input `f(a, ..., a)` with 1025 arguments
against itself: the first iteration pops the pair and pushes the 1025 component
pairs without a bounds test, so `stack[1024]` is written, one past the end of
`TermPair stack[1024]`.  The overflow guard is only reached at the top of the
next iteration. -/
theorem unify_push_writes_past_stack (aB : Nat → Option Nat) (fuel : Nat) :
    prolog_unify aB (fuel + 1) (heapWide 1025) 1 1 = some Outcome.outOfBounds :=
  unify_heapWide_outOfBounds aB 1025 fuel (by decide)

/-! ## What `prolog_unify` can change -/

theorem bindsOnly_refl (h : Heap) : BindsOnly h h := fun _ => Or.inl rfl

theorem bindsOnly_trans {h h' h'' : Heap} (h1 : BindsOnly h h') (h2 : BindsOnly h' h'') :
    BindsOnly h h'' := by
  intro a
  rcases h1 a with e1 | ⟨n, b, w, e1, e1'⟩
  · rcases h2 a with e2 | ⟨n, b, w, e2, e2'⟩
    · exact Or.inl (e2.trans e1)
    · exact Or.inr ⟨n, b, w, e1 ▸ e2, e2'⟩
  · rcases h2 a with e2 | ⟨n', b', w', e2, e2'⟩
    · exact Or.inr ⟨n, b, w, e1, e2.trans e1'⟩
    · rw [e1'] at e2
      injection e2 with e2
      injection e2 with hn _
      subst hn
      exact Or.inr ⟨n, b, w', e1, e2'⟩

theorem onlyBinds_bindsOnly {w : Nat} {h h' : Heap} (hb : OnlyBinds w h h') : BindsOnly h h' := by
  intro a
  rcases hb a with e | ⟨n, b, e, e'⟩
  · exact Or.inl e
  · exact Or.inr ⟨n, b, w, e, e'⟩

/-- The worklist loop changes no node, except that it may set the `bound` field
of Variables. -/
theorem loop_bindsOnly (aB : Nat → Option Nat) :
    ∀ (fuel : Nat) (h : Heap) (stack : List TermPair) (q : PrologUnification) (h' : Heap)
      (q' : PrologUnification),
      prolog_unify_loop aB fuel h stack q = some (Outcome.returned h' q') → BindsOnly h h' := by
  intro fuel
  induction fuel with
  | zero => intro h stack q h' q' e; simp [prolog_unify_loop] at e
  | succ k ih =>
    intro h stack q h' q' e
    rw [prolog_unify_loop] at e
    dsimp only at e
    repeat' split at e
    all_goals first
      | (simp at e; done)
      | (injection e with e; injection e with e1 _; subst e1; exact bindsOnly_refl _)
      | exact ih _ _ _ _ _ e
      | exact bindsOnly_trans
          (onlyBinds_bindsOnly (substituteStack_onlyBinds _ _ _ _ _ (by assumption)))
          (ih _ _ _ _ _ e)

/-- Function `prolog_unify` changes no node, except that it may set the `bound` field of
Variables. -/
theorem unify_bindsOnly (aB : Nat → Option Nat) (fuel : Nat) (h : Heap) (t1 t2 : Nat)
    (h' : Heap) (q : PrologUnification)
    (e : prolog_unify aB fuel h t1 t2 = some (Outcome.returned h' q)) : BindsOnly h h' := by
  unfold prolog_unify at e
  split at e
  · rename_i h1 q1 hl
    injection e with e
    injection e with e1 _
    subst e1
    exact loop_bindsOnly aB fuel h _ _ _ _ hl
  · rename_i r hr
    rw [e] at hr
    exact absurd rfl (hr h' q)

/-- C7, the claim as written, refuted on `f(Y, X)` against `f(Z, a)` with `Y`
bound to `a` and `Z` unbound before the call: after `prolog_unify` and
`prolog_unificationDestroy`, `Z` (bound during the call) is still bound and
`Y` (bound before the call) refers to another node. -/
theorem unify_then_destroy_is_not_identity :
    unifyThenDestroy nullBound 10 heapYZ 4 5 =
        some (Outcome.returned
          [Term.variable "X" none, Term.variable "Y" (some 0), Term.variable "Z" (some 0),
           Term.atom "a", Term.compound "f" [1, 0], Term.compound "f" [2, 3]]
          (PrologUnification.mk 1 none 0 0)) ∧
      heapYZ[1]? = some (Term.variable "Y" (some 3)) ∧
      heapYZ[2]? = some (Term.variable "Z" none) := by
  decide

/-- C7, as amended: `prolog_unificationDestroy` releases the result list
(`unifiers = NULL`, `size = 0`, `_cap = 0`, `success` kept) and touches no
Variable, so after `prolog_unify` followed by it the heap is the one
`prolog_unify` returned.  Compared with the heap before the call, no node has
changed except that Variables may have had their `bound` field set; no binding
is ever cleared. -/
theorem unify_then_destroy_keeps_bindings (aB : Nat → Option Nat) (fuel : Nat) (h : Heap)
    (t1 t2 : Nat) (h' : Heap) (q : PrologUnification)
    (hr : prolog_unify aB fuel h t1 t2 = some (Outcome.returned h' q)) :
    unifyThenDestroy aB fuel h t1 t2 =
        some (Outcome.returned h' (PrologUnification.mk q.success none 0 0)) ∧
      ∀ a : Nat, h'[a]? = h[a]? ∨
        ∃ n b w, h[a]? = some (Term.variable n b) ∧
          h'[a]? = some (Term.variable n (some w)) := by
  refine ⟨?_, unify_bindsOnly aB fuel h t1 t2 h' q hr⟩
  unfold unifyThenDestroy
  rw [hr]
  rfl

/-- C7, witness: the amended statement applied to `f(Y, X)` against
`f(Z, a)`. -/
theorem unify_then_destroy_keeps_bindings_witness :
    prolog_unify nullBound 10 heapYZ 4 5 =
      some (Outcome.returned
        [Term.variable "X" none, Term.variable "Y" (some 0), Term.variable "Z" (some 0),
         Term.atom "a", Term.compound "f" [1, 0], Term.compound "f" [2, 3]]
        (PrologUnification.mk 1 (some [TermPair.mk 0 3]) 1 64)) ∧
    unifyThenDestroy nullBound 10 heapYZ 4 5 =
      some (Outcome.returned
        [Term.variable "X" none, Term.variable "Y" (some 0), Term.variable "Z" (some 0),
         Term.atom "a", Term.compound "f" [1, 0], Term.compound "f" [2, 3]]
        (PrologUnification.mk 1 none 0 0)) :=
  ⟨by decide,
    (unify_then_destroy_keeps_bindings nullBound 10 heapYZ 4 5 _
      (PrologUnification.mk 1 (some [TermPair.mk 0 3]) 1 64) (by decide)).1⟩

/-! ## Resolution -/

/-- C6, the code at the failing input: with the facts `likes(mary, wine)` and
`likes(john, wine)` in the database, `prolog_resolve` on the query
`likes(X, wine)` yields no solution and leaves `X` unbound, although
`prolog_unify` of the query with each fact succeeds, recording `X = mary` and
`X = john`. -/
theorem resolve_likes_yields_no_solution :
    dbLikes = PrologDatabase.mk (some [3, 4]) 2 64 ∧
      prolog_resolve dbLikes heapLikes 6 = (heapLikes, []) ∧
      prolog_unify nullBound 10 heapLikes 6 3 =
        some (Outcome.returned heapLikes
          (PrologUnification.mk 1 (some [TermPair.mk 5 0]) 1 64)) ∧
      prolog_unify nullBound 10 heapLikes 6 4 =
        some (Outcome.returned heapLikes
          (PrologUnification.mk 1 (some [TermPair.mk 5 2]) 1 64)) := by
  decide

/-! ## Names in the arena -/

/-- C10, the code at the failing input: on a fresh arena `prolog_newAtom`
stores `"abcdefgh"` at offset 32 in the 8 bytes it allocated, with the
terminating NUL at offset 40, the first free byte (`bump`).  Read back at once
the name is `"abcdefgh"`; after a following `prolog_newVariable(a, "X")`,
whose node is placed at offset 40, the bytes at the name pointer are no longer
a NUL-terminated string, and likewise after a following `prolog_newAtom`.
With `prolog_newCompound` the terminator is lost within the same call: for the
name stored at offset 72 it lies at offset 80, where the `components` array
starts. -/
theorem name_terminator_is_overwritten :
    (prolog_newAtom lp64 arena0 nameAbcdefgh).map
        (fun b => (b.term, b.name, b.arena.bump, readCString b.arena.buf 64 b.name)) =
        some (0, 32, 40, some nameAbcdefgh) ∧
      readBackAfter (prolog_newAtom lp64 arena0 nameAbcdefgh)
        (fun a => prolog_newVariable lp64 a nameX) = some none ∧
      readBackAfter (prolog_newAtom lp64 arena0 nameAbcdefgh)
        (fun a => prolog_newAtom lp64 a nameX) = some none ∧
      (match prolog_newAtom lp64 arena0 nameX with
        | none => none
        | some x =>
          (prolog_newCompound lp64 x.arena nameAbcdefgh [x.term]).map
            (fun b => (b.term, b.name, b.arena.bump, readCString b.arena.buf 64 b.name))) =
        some (40, 72, 88, none) := by
  decide

/-! ## Failure of unification -/

/-- C15: for every Atom `a` and every Compound `c`, whatever their names, the
arity and the arguments, `prolog_unify(a, c)` and `prolog_unify(c, a)` both
return with `success = 0` (and the result list destroyed). -/
theorem unify_atom_compound_fails (aB : Nat → Option Nat) (h : Heap) (ta tc : Nat)
    (an cn : String) (cs : List Nat) (fuel : Nat)
    (ha : h[ta]? = some (Term.atom an)) (hc : h[tc]? = some (Term.compound cn cs)) :
    prolog_unify aB (fuel + 1) h ta tc =
        some (Outcome.returned h (PrologUnification.mk 0 none 0 0)) ∧
      prolog_unify aB (fuel + 1) h tc ta =
        some (Outcome.returned h (PrologUnification.mk 0 none 0 0)) := by
  constructor
  · unfold prolog_unify
    rw [loop_mismatch aB h [TermPair.mk ta tc] [] ta tc _ (Term.atom an)
      (Term.compound cn cs) fuel rfl ha hc (by simp) (by simp) (by simp)
      (by simp [PROLOG_STACK_HEIGHT, PROLOG_STACK_SIZE])]
    rfl
  · unfold prolog_unify
    rw [loop_mismatch aB h [TermPair.mk tc ta] [] tc ta _ (Term.compound cn cs)
      (Term.atom an) fuel rfl hc ha (by simp) (by simp) (by simp)
      (by simp [PROLOG_STACK_HEIGHT, PROLOG_STACK_SIZE])]
    rfl

/-- C15, witness: the Atom `a` and the Compound `f(a)`. -/
theorem unify_atom_compound_fails_witness :
    heapXfa[1]? = some (Term.atom "a") ∧ heapXfa[2]? = some (Term.compound "f" [1]) ∧
    prolog_unify nullBound (0 + 1) heapXfa 1 2 =
      some (Outcome.returned heapXfa (PrologUnification.mk 0 none 0 0)) ∧
    prolog_unify nullBound (0 + 1) heapXfa 2 1 =
      some (Outcome.returned heapXfa (PrologUnification.mk 0 none 0 0)) :=
  ⟨rfl, rfl, unify_atom_compound_fails nullBound heapXfa 1 2 "a" "f" [1] 0 rfl rfl⟩

/-- Pushing a pair keeps `success` and keeps `size` within a non-zero `_cap`. -/
theorem push_unifier_shape (q : PrologUnification) (a b : Nat)
    (hs : q.success = 1) (hc : q.size ≤ q._cap) (h0 : 0 < q._cap) :
    (_prolog_push_unifier q a b).success = 1 ∧
      (_prolog_push_unifier q a b).size ≤ (_prolog_push_unifier q a b)._cap ∧
      0 < (_prolog_push_unifier q a b)._cap := by
  unfold _prolog_push_unifier
  simp only
  refine ⟨hs, ?_, ?_⟩
  · split <;> omega
  · split <;> omega

/-- The worklist loop, started with a successful `q` whose `size` is within
its `_cap`, is left either with such a `q` or through the failure branch. -/
theorem loop_result_shape (aB : Nat → Option Nat) :
    ∀ (fuel : Nat) (h : Heap) (stack : List TermPair) (q : PrologUnification) (h' : Heap)
      (q' : PrologUnification),
      q.success = 1 → q.size ≤ q._cap → 0 < q._cap →
      prolog_unify_loop aB fuel h stack q = some (Outcome.returned h' q') →
      (q'.success = 1 ∧ q'.size ≤ q'._cap) ∨ q'.success = 0 := by
  intro fuel
  induction fuel with
  | zero => intro h stack q h' q' _ _ _ e; simp [prolog_unify_loop] at e
  | succ k ih =>
    intro h stack q h' q' hs hc h0 e
    rw [prolog_unify_loop] at e
    dsimp only at e
    repeat' split at e
    all_goals first
      | (simp at e; done)
      | (injection e with e; injection e with _ e2; subst e2; exact Or.inl ⟨hs, hc⟩)
      | (injection e with e; injection e with _ e2; subst e2; exact Or.inr rfl)
      | exact ih _ _ _ _ _ hs hc h0 e
      | exact ih _ _ _ _ _ (push_unifier_shape q _ _ hs hc h0).1
          (push_unifier_shape q _ _ hs hc h0).2.1 (push_unifier_shape q _ _ hs hc h0).2.2 e

/-- C19: whenever `prolog_unify` returns with `success = 0`, the result is
`success = 0`, `unifiers = NULL`, `size = 0`, `_cap = 0`, whatever had been
recorded before; and whenever it returns with another `success`, then
`success = 1` and `size <= _cap`. -/
theorem unify_result_shape (aB : Nat → Option Nat) (fuel : Nat) (h : Heap) (t1 t2 : Nat)
    (h' : Heap) (q : PrologUnification)
    (hr : prolog_unify aB fuel h t1 t2 = some (Outcome.returned h' q)) :
    (q.success = 0 → q = PrologUnification.mk 0 none 0 0) ∧
      (q.success ≠ 0 → q.success = 1 ∧ q.size ≤ q._cap) := by
  unfold prolog_unify at hr
  split at hr
  · rename_i h1 q1 hl
    injection hr with hr
    injection hr with _ hq
    have hshape := loop_result_shape aB fuel h _ _ h1 q1 rfl (by decide) (by decide) hl
    rcases hshape with ⟨s1, s2⟩ | s0
    · have hne : q1.success ≠ 0 := by rw [s1]; decide
      rw [if_neg hne] at hq
      subst hq
      exact ⟨fun hz => absurd hz hne, fun _ => ⟨s1, s2⟩⟩
    · rw [if_pos s0] at hq
      subst hq
      refine ⟨fun _ => ?_, fun hne => absurd ?_ hne⟩
      · simp [prolog_unificationDestroy, s0]
      · simp [prolog_unificationDestroy, s0]
  · rename_i r hne
    rw [hr] at hne
    exact absurd rfl (hne h' q)

/-- C19, witness: `f(g(a), X)` against `f(a, b)` records `(X, b)` first and
then meets the mismatching pair `(g(a), a)`: the loop is left with one pair
recorded, and the result returned carries nothing. -/
theorem unify_result_shape_witness :
    prolog_unify_loop nullBound 10 heapLate [TermPair.mk 4 5]
        (PrologUnification.mk 1 (some []) 0 64) =
      some (Outcome.returned heapLate (PrologUnification.mk 0 (some [TermPair.mk 2 1]) 1 64)) ∧
    prolog_unify nullBound 10 heapLate 4 5 =
      some (Outcome.returned heapLate (PrologUnification.mk 0 none 0 0)) ∧
    ((PrologUnification.mk 0 none 0 0).success = 0 →
      PrologUnification.mk 0 none 0 0 = PrologUnification.mk 0 none 0 0) ∧
    ((PrologUnification.mk 0 none 0 0).success ≠ 0 →
      (PrologUnification.mk 0 none 0 0).success = 1 ∧
        (PrologUnification.mk 0 none 0 0).size ≤ (PrologUnification.mk 0 none 0 0)._cap) :=
  ⟨by decide, by decide,
    unify_result_shape nullBound 10 heapLate 4 5 heapLate (PrologUnification.mk 0 none 0 0)
      (by decide)⟩

/-! ## Alignment and the bump offset -/

/-- Function `_prolog_align` with a power-of-two alignment rounds up to the
least multiple of the alignment, and aligned offsets are fixed points. -/
theorem prolog_align_props (n k : Nat) (hk : k < 64)
    (hn : n + 2 ^ k - 1 < 2 ^ 64) :
    2 ^ k ∣ _prolog_align n (2 ^ k) ∧ n ≤ _prolog_align n (2 ^ k) ∧
      (∀ m, 2 ^ k ∣ m → n ≤ m → _prolog_align n (2 ^ k) ≤ m) ∧
      _prolog_align n (2 ^ k) < n + 2 ^ k ∧
      _prolog_align (_prolog_align n (2 ^ k)) (2 ^ k) = _prolog_align n (2 ^ k) := by
  have hpos : 0 < 2 ^ k := Nat.two_pow_pos k
  have hdm := Nat.div_add_mod (n + 2 ^ k - 1) (2 ^ k)
  have hml := Nat.mod_lt (n + 2 ^ k - 1) hpos
  have hcomm : (n + 2 ^ k - 1) / 2 ^ k * 2 ^ k = 2 ^ k * ((n + 2 ^ k - 1) / 2 ^ k) :=
    Nat.mul_comm _ _
  have h64 : (2 : Nat) ^ 64 = 2 ^ k * 2 ^ (64 - k) := by
    rw [← Nat.pow_add]; congr 1; omega
  -- the aligned offset plus `align - 1` does not wrap either
  have hr : (n + 2 ^ k - 1) / 2 ^ k * 2 ^ k + 2 ^ k - 1 < 2 ^ 64 := by
    have h1 : 2 ^ k * ((n + 2 ^ k - 1) / 2 ^ k) < 2 ^ k * 2 ^ (64 - k) := by
      rw [← h64]; omega
    have h2 : (n + 2 ^ k - 1) / 2 ^ k < 2 ^ (64 - k) := Nat.lt_of_mul_lt_mul_left h1
    have h3 : 2 ^ k * ((n + 2 ^ k - 1) / 2 ^ k + 1) ≤ 2 ^ k * 2 ^ (64 - k) :=
      Nat.mul_le_mul_left _ h2
    rw [Nat.mul_add, Nat.mul_one, ← h64] at h3
    omega
  have hidem : _prolog_align ((n + 2 ^ k - 1) / 2 ^ k * 2 ^ k) (2 ^ k) =
      (n + 2 ^ k - 1) / 2 ^ k * 2 ^ k := by
    rw [prolog_align_eq _ k hk hr]
    congr 1
    apply Nat.div_eq_of_lt_le
    · omega
    · rw [Nat.add_mul, Nat.one_mul]; omega
  rw [prolog_align_eq n k hk hn]
  refine ⟨Dvd.intro_left _ rfl, by omega, ?_, by omega, hidem⟩
  rintro m ⟨j, rfl⟩ hle
  have hlt : n + 2 ^ k - 1 < 2 ^ k * (j + 1) := by rw [Nat.mul_add, Nat.mul_one]; omega
  have hd : (n + 2 ^ k - 1) / 2 ^ k < j + 1 := (Nat.div_lt_iff_lt_mul hpos).2 (by
    rw [Nat.mul_comm]; exact hlt)
  rw [hcomm]
  exact Nat.mul_le_mul_left _ (by omega)

/-- C16: for every `n` and every power-of-two `align = 2 ^ k` with
`n + align - 1 < 2 ^ 64`, `_prolog_align(n, align)` is a multiple of `align`,
is at least `n`, is at most every multiple of `align` that is at least `n`, is
below `n + align`, and is left unchanged by aligning it again. -/
theorem prolog_align_least_multiple (n k : Nat) (hk : k < 64)
    (hn : n + 2 ^ k - 1 < 2 ^ 64) :
    2 ^ k ∣ _prolog_align n (2 ^ k) ∧ n ≤ _prolog_align n (2 ^ k) ∧
      (∀ m, 2 ^ k ∣ m → n ≤ m → _prolog_align n (2 ^ k) ≤ m) ∧
      _prolog_align n (2 ^ k) < n + 2 ^ k ∧
      _prolog_align (_prolog_align n (2 ^ k)) (2 ^ k) = _prolog_align n (2 ^ k) :=
  prolog_align_props n k hk hn

/-- C16, witness: aligning offset 13 to 8 gives 16. -/
theorem prolog_align_least_multiple_witness :
    (3 : Nat) < 64 ∧ 13 + 2 ^ 3 - 1 < 2 ^ 64 ∧ _prolog_align 13 (2 ^ 3) = 16 ∧
    2 ^ 3 ∣ _prolog_align 13 (2 ^ 3) ∧ 13 ≤ _prolog_align 13 (2 ^ 3) ∧
    _prolog_align 13 (2 ^ 3) < 13 + 2 ^ 3 ∧
    _prolog_align (_prolog_align 13 (2 ^ 3)) (2 ^ 3) = _prolog_align 13 (2 ^ 3) :=
  have h := prolog_align_least_multiple 13 3 (by decide) (by decide)
  ⟨by decide, by decide, by decide, h.1, h.2.1, h.2.2.2.1, h.2.2.2.2⟩

/-- One successful `prolog_alloc` with a power-of-two alignment, from a `bump`
inside the buffer, when offset plus size does not wrap: the offset is a
multiple of the alignment and not before the old `bump`, and the new `bump` is
the end of the region. -/
theorem prolog_alloc_step (a a' : PrologArena) (bytes k off : Nat) (hk : k < 64)
    (hb : a.bump ≤ PROLOG_ARENA_SIZE)
    (he : prolog_alloc a bytes (2 ^ k) = some (off, a'))
    (hw : off + bytes < 2 ^ 64) :
    2 ^ k ∣ off ∧ a.bump ≤ off ∧ a'.bump = off + bytes ∧ a'.bump < PROLOG_ARENA_SIZE := by
  have hlt : 2 ^ k ≤ 2 ^ 63 := Nat.pow_le_pow_right (by decide) (by omega)
  have hn : a.bump + 2 ^ k - 1 < 2 ^ 64 := by
    have : PROLOG_ARENA_SIZE = 262144 := rfl
    omega
  have hal := prolog_align_props a.bump k hk hn
  unfold prolog_alloc at he
  simp only [PROLOG_CATCH_OOM] at he
  split at he
  · simp at he
  · rename_i hc
    injection he with he
    injection he with h1 h2
    subst h1
    subst h2
    simp only [SIZE_MODULUS] at hc ⊢
    rw [Nat.mod_eq_of_lt hw] at hc ⊢
    refine ⟨hal.1, hal.2.1, rfl, ?_⟩
    by_contra hge
    exact hc ⟨by decide, by omega⟩

/-- A sequence of successful `prolog_alloc` calls with power-of-two alignments
in which no offset plus size wraps: every offset is a multiple of its
alignment and not before the `bump` the sequence started from, and every
region ends at or before the offset of every later one. -/
theorem allocAll_regions :
    ∀ (rs : List (Nat × Nat)) (a : PrologArena) (l : List AllocRecord),
      a.bump ≤ PROLOG_ARENA_SIZE → (∀ r ∈ rs, ∃ k, k < 64 ∧ r.2 = 2 ^ k) →
      allocAll a rs = some l → (∀ r ∈ l, r.offset + r.bytes < 2 ^ 64) →
      (∀ r ∈ l, r.align ∣ r.offset ∧ a.bump ≤ r.offset ∧ r.bump = r.offset + r.bytes) ∧
        l.Pairwise (fun r1 r2 => r1.offset + r1.bytes ≤ r2.offset) := by
  intro rs
  induction rs with
  | nil =>
    intro a l _ _ he _
    simp only [allocAll] at he
    injection he with he
    subst he
    simp
  | cons r rs ih =>
    intro a l hb hal he hw
    obtain ⟨bytes, align⟩ := r
    obtain ⟨k, hk, hk2⟩ := hal (bytes, align) (List.mem_cons_self _ _)
    simp only at hk2
    subst hk2
    simp only [allocAll] at he
    cases h1 : prolog_alloc a bytes (2 ^ k) with
    | none => rw [h1] at he; simp at he
    | some p =>
      obtain ⟨off, a'⟩ := p
      rw [h1] at he
      simp only at he
      cases h2 : allocAll a' rs with
      | none => rw [h2] at he; simp at he
      | some l' =>
        rw [h2] at he
        simp only at he
        injection he with he
        subst he
        have hw0 : off + bytes < 2 ^ 64 := hw _ (List.mem_cons_self _ _)
        have hstep := prolog_alloc_step a a' bytes k off hk hb h1 hw0
        have hrec := ih a' l' (by omega)
          (fun r hr => hal r (List.mem_cons_of_mem _ hr)) h2
          (fun r hr => hw r (List.mem_cons_of_mem _ hr))
        constructor
        · intro r hr
          rcases List.mem_cons.1 hr with rfl | hr
          · exact ⟨hstep.1, hstep.2.1, hstep.2.2.1⟩
          · have := hrec.1 r hr
            exact ⟨this.1, by omega, this.2.2⟩
        · refine List.pairwise_cons.2 ⟨?_, hrec.2⟩
          intro r hr
          have := (hrec.1 r hr).2.1
          simp only
          omega

/-- C17, the code at the failing input: on a fresh arena `prolog_alloc(a, 16,
8)` returns offset 0 and leaves `bump = 16`; then `prolog_alloc(a, 2^64 - 8,
8)`, the request `sizeof(Term*) * arity` of `prolog_newCompound` for
`arity = 2^61 - 1`, does not report out-of-memory: offset plus size wraps to 8,
which is below `PROLOG_ARENA_SIZE`, so the call returns offset 16 for a region
that ends far beyond the buffer. -/
theorem alloc_wrapped_size_leaves_buffer :
    allocAll arena0 [(16, 8), (2 ^ 64 - 8, 8)] =
        some [AllocRecord.mk 16 8 0 16, AllocRecord.mk (2 ^ 64 - 8) 8 16 8] ∧
      lp64.sizeofPtr * (2 ^ 61 - 1) = 2 ^ 64 - 8 ∧
      (2 ^ 64 - 8 < SIZE_MODULUS) ∧
      ¬ (16 + (2 ^ 64 - 8) ≤ PROLOG_ARENA_SIZE) := by
  decide

/-- C13, the code at the failing input, and the claim where no size wraps.  On
a fresh arena the calls `prolog_alloc(a, 16, 8)`, `prolog_alloc(a, 2^64 - 8,
8)` and `prolog_alloc(a, 8, 8)` all succeed; the second moves `bump` back from
16 to 8 and the third returns the region `[8, 16)`, inside the region
`[0, 16)` of the first.  For every sequence of successful calls with
power-of-two alignments in which no offset plus size wraps, the offsets are
multiples of their alignments, not before the previous `bump`, and the regions
are pairwise disjoint, each ending at or before the start of every later one. -/
theorem alloc_wrapped_size_overlaps :
    allocAll arena0 [(16, 8), (2 ^ 64 - 8, 8), (8, 8)] =
        some [AllocRecord.mk 16 8 0 16, AllocRecord.mk (2 ^ 64 - 8) 8 16 8,
          AllocRecord.mk 8 8 8 16] ∧
      ∀ (rs : List (Nat × Nat)) (a : PrologArena) (l : List AllocRecord),
        a.bump ≤ PROLOG_ARENA_SIZE → (∀ r ∈ rs, ∃ k, k < 64 ∧ r.2 = 2 ^ k) →
        allocAll a rs = some l → (∀ r ∈ l, r.offset + r.bytes < 2 ^ 64) →
        (∀ r ∈ l, r.align ∣ r.offset ∧ a.bump ≤ r.offset ∧ r.bump = r.offset + r.bytes) ∧
          l.Pairwise (fun r1 r2 => r1.offset + r1.bytes ≤ r2.offset) :=
  ⟨by decide, allocAll_regions⟩

/-! ## The database -/

theorem addFact_entries (db : PrologDatabase) (fact : Nat) (hv : db.Valid) :
    (prolog_addFact db fact).facts = some (db.entries ++ [fact]) ∧
      (prolog_addFact db fact).size = db.size + 1 := by
  unfold PrologDatabase.Valid PrologDatabase.entries at hv
  unfold prolog_addFact PrologDatabase.entries
  cases hf : db.facts with
  | none => simp
  | some fs =>
    rw [hf] at hv
    simp only [Option.getD_some] at hv ⊢
    rw [← hv, List.take_length]
    simp

theorem addFact_valid (db : PrologDatabase) (fact : Nat) (hv : db.Valid) :
    (prolog_addFact db fact).Valid := by
  have h := addFact_entries db fact hv
  unfold PrologDatabase.Valid PrologDatabase.entries at hv ⊢
  rw [h.1, h.2]
  simp [PrologDatabase.entries, hv]

theorem addFacts_concat (fs : List Nat) (f : Nat) :
    addFacts (fs ++ [f]) = prolog_addFact (addFacts fs) f := by
  simp [addFacts, List.foldl_append]

theorem addFacts_entries (fs : List Nat) :
    (addFacts fs).Valid ∧ (addFacts fs).entries = fs ∧ (addFacts fs).size = fs.length := by
  induction fs using List.reverseRecOn with
  | nil => exact ⟨rfl, rfl, rfl⟩
  | append_singleton fs f ih =>
    rw [addFacts_concat]
    have h := addFact_entries (addFacts fs) f ih.1
    refine ⟨addFact_valid _ f ih.1, ?_, ?_⟩
    · have he : (prolog_addFact (addFacts fs) f).entries = (addFacts fs).entries ++ [f] := by
        unfold PrologDatabase.entries
        rw [h.1]
        rfl
      rw [he, ih.2.1]
    · rw [h.2, ih.2.2]; simp

/-- C12: for every database state (one in which `size` counts the stored
entries) and every fact, after `prolog_addFact` the size is the old size plus
one, the stored sequence is the old one followed by the new fact — the entry
at the old size is the new fact and every earlier entry is unchanged and in
its place — and the state is again such a state.  So after adding `f1 .. fn`
to an initialised database the stored sequence is exactly `[f1, ..., fn]`. -/
theorem addFact_appends (db : PrologDatabase) (fact : Nat) (hv : db.Valid) :
    (prolog_addFact db fact).size = db.size + 1 ∧
      (prolog_addFact db fact).entries = db.entries ++ [fact] ∧
      (prolog_addFact db fact).entries[db.size]? = some fact ∧
      (∀ i, i < db.size → (prolog_addFact db fact).entries[i]? = db.entries[i]?) ∧
      (prolog_addFact db fact).Valid ∧
      ∀ fs : List Nat, prolog_database_init.Valid ∧
        (addFacts fs).entries = fs ∧ (addFacts fs).size = fs.length := by
  have h := addFact_entries db fact hv
  have he : (prolog_addFact db fact).entries = db.entries ++ [fact] := by
    unfold PrologDatabase.entries
    rw [h.1]
    rfl
  have hv' : db.entries.length = db.size := hv
  refine ⟨h.2, he, ?_, ?_, addFact_valid db fact hv, fun fs => ⟨rfl, (addFacts_entries fs).2⟩⟩
  · rw [he, ← hv']; simp
  · intro i hi
    rw [he, List.getElem?_append_left (by omega)]

/-- C12, witness: adding a fact to the initialised database. -/
theorem addFact_appends_witness :
    prolog_database_init.Valid ∧
    (prolog_addFact prolog_database_init 7).size = prolog_database_init.size + 1 ∧
    (prolog_addFact prolog_database_init 7).entries = prolog_database_init.entries ++ [7] :=
  ⟨rfl, (addFact_appends prolog_database_init 7 rfl).1,
    (addFact_appends prolog_database_init 7 rfl).2.1⟩

/-- After at least one `prolog_addFact` the array is allocated, `size` is
within `cap`, and `cap` is 64 times a power of two. -/
theorem addFacts_cap (fs : List Nat) (f : Nat) :
    (addFacts (fs ++ [f])).facts ≠ none ∧
      (addFacts (fs ++ [f])).size ≤ (addFacts (fs ++ [f])).cap ∧
      ∃ k, (addFacts (fs ++ [f])).cap = 64 * 2 ^ k := by
  induction fs using List.reverseRecOn generalizing f with
  | nil => exact ⟨by simp [addFacts, prolog_addFact, prolog_database_init],
      by simp [addFacts, prolog_addFact, prolog_database_init], 0, rfl⟩
  | append_singleton fs g ih =>
    obtain ⟨h1, h2, k, h3⟩ := ih g
    rw [addFacts_concat]
    generalize addFacts (fs ++ [g]) = db at h1 h2 h3
    unfold prolog_addFact
    cases hf : db.facts with
    | none => exact absurd hf h1
    | some l =>
      simp only
      have hp : 0 < db.cap := by
        rw [h3]; exact Nat.mul_pos (by decide) (Nat.two_pow_pos k)
      refine ⟨by simp, ?_, ?_⟩
      · show db.size + 1 ≤ if db.size ≥ db.cap then db.cap * 2 else db.cap
        split
        · omega
        · omega
      · split
        · exact ⟨k + 1, by rw [h3, Nat.pow_succ, Nat.mul_assoc]⟩
        · exact ⟨k, h3⟩

/-- C20, the claim as written, refuted: after the empty sequence of calls the
capacity is 0, which is `64 * 2^k` for no `k`; and the first call finds
`size = cap` (both 0), yet it does not double the capacity (twice 0 is 0): it
allocates 64 entries. -/
theorem addFact_first_call_sets_capacity :
    (addFacts []).cap = 0 ∧ (¬ ∃ k, (addFacts []).cap = 64 * 2 ^ k) ∧
      (addFacts []).size = (addFacts []).cap ∧
      (addFacts [7]).cap = 64 ∧ (addFacts [7]).cap ≠ 2 * (addFacts []).cap := by
  refine ⟨rfl, ?_, rfl, rfl, by decide⟩
  rintro ⟨k, hk⟩
  have hp : 0 < 64 * 2 ^ k := Nat.mul_pos (by decide) (Nat.two_pow_pos k)
  have h0 : (addFacts []).cap = 0 := rfl
  omega

/-- C20, as amended: after any sequence of one or more `prolog_addFact` calls on an
initialised database, `size <= cap` and `cap = 64 * 2^k` for some `k`; the
first call allocates 64 entries, and every later call doubles the capacity
exactly when it finds `size = cap` and otherwise leaves it alone; so the index
`size` written by a call is always strictly below the capacity the call
leaves. -/
theorem addFact_capacity (fs : List Nat) (f : Nat) :
    (addFacts (fs ++ [f])).size ≤ (addFacts (fs ++ [f])).cap ∧
      (∃ k, (addFacts (fs ++ [f])).cap = 64 * 2 ^ k) ∧
      (addFacts fs).size < (addFacts (fs ++ [f])).cap ∧
      (fs = [] → (addFacts (fs ++ [f])).cap = 64) ∧
      (fs ≠ [] →
        ((addFacts (fs ++ [f])).cap = 2 * (addFacts fs).cap ↔
          (addFacts fs).size = (addFacts fs).cap) ∧
        ((addFacts (fs ++ [f])).cap = (addFacts fs).cap ↔
          (addFacts fs).size ≠ (addFacts fs).cap)) := by
  have hinv := addFacts_cap fs f
  have hsize : (addFacts (fs ++ [f])).size = (addFacts fs).size + 1 := by
    rw [addFacts_concat]
    exact (addFact_entries _ f (addFacts_entries fs).1).2
  refine ⟨hinv.2.1, hinv.2.2, by omega, ?_, ?_⟩
  · intro h0
    subst h0
    rfl
  · intro hne
    obtain ⟨gs, g, rfl⟩ : ∃ gs g, fs = gs ++ [g] := by
      rcases List.eq_nil_or_concat fs with h | ⟨gs, g, h⟩
      · exact absurd h hne
      · exact ⟨gs, g, by simpa using h⟩
    obtain ⟨h1, h2, k, h3⟩ := addFacts_cap gs g
    rw [addFacts_concat (gs ++ [g]) f]
    generalize addFacts (gs ++ [g]) = db at h1 h2 h3
    have hp : 0 < db.cap := by
      rw [h3]; exact Nat.mul_pos (by decide) (Nat.two_pow_pos k)
    unfold prolog_addFact
    cases hf : db.facts with
    | none => exact absurd hf h1
    | some l =>
      show ((if db.size ≥ db.cap then db.cap * 2 else db.cap) = 2 * db.cap ↔
          db.size = db.cap) ∧
        ((if db.size ≥ db.cap then db.cap * 2 else db.cap) = db.cap ↔ db.size ≠ db.cap)
      split
      · constructor <;> constructor <;> intro _ <;> omega
      · constructor <;> constructor <;> intro _ <;> omega

/-! ## Construction of Compounds -/

theorem fillComponents_aux (args : List Nat) :
    ∀ m, m ≤ args.length →
      ((List.range m).foldl (fun cs i => cs.set i (args.getD i 0))
          (List.replicate args.length 0)).length = args.length ∧
        ∀ i, i < m →
          ((List.range m).foldl (fun cs i => cs.set i (args.getD i 0))
            (List.replicate args.length 0))[i]? = args[i]? := by
  intro m
  induction m with
  | zero => intro _; simp
  | succ m ih =>
    intro hm
    obtain ⟨hl, hi⟩ := ih (by omega)
    rw [List.range_succ, List.foldl_append]
    simp only [List.foldl_cons, List.foldl_nil, List.length_set]
    refine ⟨hl, ?_⟩
    intro i him
    by_cases hmi : m = i
    · subst hmi
      rw [List.getElem?_set_self (by omega), List.getD_eq_getElem?_getD,
        List.getElem?_eq_getElem (by omega)]
      rfl
    · rw [List.getElem?_set_ne hmi]
      exact hi i (by omega)

theorem fillComponents_eq (args : List Nat) : fillComponents args = args := by
  obtain ⟨hl, hi⟩ := fillComponents_aux args args.length (Nat.le_refl _)
  apply List.ext_getElem?
  intro i
  by_cases h : i < args.length
  · exact hi i h
  · unfold fillComponents
    rw [List.getElem?_eq_none (by omega), List.getElem?_eq_none (by omega)]

/-- Function `TermStore.newCompound` fails exactly when one of the three requests
of `prolog_newCompound` to `prolog_alloc` is answered with out-of-memory. -/
theorem newCompound_eq_none (L : Layout) (s : TermStore) (name args : List Nat) :
    TermStore.newCompound L s name args = none ↔
      allocAll s.arena [(L.sizeofTerm, L.alignofTerm), (strlen name, 1),
        ((L.sizeofPtr * args.length) % SIZE_MODULUS, L.alignofPtr)] = none := by
  unfold TermStore.newCompound prolog_newCompound allocAll allocAll allocAll allocAll
  rcases h1 : prolog_alloc s.arena L.sizeofTerm L.alignofTerm with _ | ⟨t, a1⟩
  · simp
  · rcases h2 : prolog_alloc a1 (strlen name) 1 with _ | ⟨n, a2⟩
    · simp [h2]
    · rcases h3 : prolog_alloc a2 ((L.sizeofPtr * args.length) % SIZE_MODULUS) L.alignofPtr
        with _ | ⟨c, a3⟩
      · simp [h2, h3]
      · simp [h2, h3]

/-- C11, the claim as written, refuted: called with no arguments on a fresh
arena, `prolog_newCompound` does not fail; it takes the node, the name and an
empty `components` array from the arena (40 bytes in all) and returns a
Compound node of arity 0. -/
theorem newCompound_arity_zero_constructs :
    (TermStore.newCompound lp64 (TermStore.mk arena0 [] []) nameF []).map
        (fun r => (r.1, r.2.heap, r.2.addr, r.2.arena.bump)) =
      some (0, [Term.compound "f" []], [0], 40) ∧
    (Term.compound "f" []).arity = 0 := by
  decide

/-- C11, as amended: called with `n` arguments, `n = 0` included,
`prolog_newCompound` fails if and only if one of its three requests to
`prolog_alloc` (the node, `strlen(name)` bytes, the array of `n` pointers) is
answered with out-of-memory; there is no failure for an empty argument
sequence as such.  When it returns, the result is a new Compound node whose
arity is `n` and whose `i`-th component is the `i`-th argument, in order, and
the nodes that existed before are unchanged. -/
theorem newCompound_components (L : Layout) (s : TermStore) (name args : List Nat) :
    (TermStore.newCompound L s name args = none ↔
      allocAll s.arena [(L.sizeofTerm, L.alignofTerm), (strlen name, 1),
        ((L.sizeofPtr * args.length) % SIZE_MODULUS, L.alignofPtr)] = none) ∧
    (allocAll s.arena [(L.sizeofTerm, L.alignofTerm), (strlen name, 1),
        ((L.sizeofPtr * args.length) % SIZE_MODULUS, L.alignofPtr)] ≠ none →
      ∃ s', TermStore.newCompound L s name args = some (s.heap.length, s')) ∧
    ∀ (p : Nat) (s' : TermStore),
      TermStore.newCompound L s name args = some (p, s') →
      p = s.heap.length ∧
      s'.heap = s.heap ++ [Term.compound (nameText name) args] ∧
      s'.heap[p]? = some (Term.compound (nameText name) args) ∧
      (Term.compound (nameText name) args).arity = args.length ∧
      (∀ i : Nat, (Term.compound (nameText name) args).components[i]? = args[i]?) ∧
      (∀ t : Nat, t < s.heap.length → s'.heap[t]? = s.heap[t]?) ∧
      ∃ b, prolog_newCompound L s.arena name args = some b ∧
        s'.arena = b.arena ∧ s'.addr = s.addr ++ [b.term] := by
  have hshape : ∀ (p : Nat) (s' : TermStore),
      TermStore.newCompound L s name args = some (p, s') →
      p = s.heap.length ∧ s'.heap = s.heap ++ [Term.compound (nameText name) args] ∧
      ∃ b, prolog_newCompound L s.arena name args = some b ∧
        s'.arena = b.arena ∧ s'.addr = s.addr ++ [b.term] := by
    intro p s' e
    unfold TermStore.newCompound at e
    rcases hb : prolog_newCompound L s.arena name args with _ | b
    · rw [hb] at e; simp at e
    · rw [hb] at e
      simp only [Option.some.injEq, Prod.mk.injEq] at e
      obtain ⟨e1, e2⟩ := e
      subst e1 e2
      rw [fillComponents_eq]
      exact ⟨rfl, rfl, b, rfl, rfl, rfl⟩
  refine ⟨newCompound_eq_none L s name args, ?_, ?_⟩
  · intro hne
    rcases hr : TermStore.newCompound L s name args with _ | ⟨p, s'⟩
    · exact absurd ((newCompound_eq_none L s name args).1 hr) hne
    · obtain ⟨hp, _⟩ := hshape p s' hr
      subst hp
      exact ⟨s', rfl⟩
  · intro p s' e
    obtain ⟨hp, hh, hb⟩ := hshape p s' e
    refine ⟨hp, hh, ?_, rfl, fun _ => rfl, ?_, hb⟩
    · rw [hh, hp, List.getElem?_append_right (Nat.le_refl _)]
      simp
    · intro t ht
      rw [hh, List.getElem?_append_left ht]

/-! ## The Variable branch and the pairs still queued -/

/-- The guard at the top of the loop. -/
theorem loop_run_overflow (aB : Nat → Option Nat) (ok : Nat → Bool) (k : Nat) (h : Heap)
    (stack : List TermPair) (q : PrologUnification) (m : RunLog)
    (hlen : PROLOG_STACK_HEIGHT ≤ stack.length) :
    prolog_unify_loop_run aB ok (k + 1) h stack q m = some (Ending.overflow m) := by
  have h0 : stack.length ≠ 0 := by
    have : 0 < PROLOG_STACK_HEIGHT := by decide
    omega
  rw [prolog_unify_loop_run]; simp [h0, hlen]

/-- Third branch: two Compounds of the same non-zero arity; the component
pairs are stored whether they fit into `stack` or not. -/
theorem loop_run_compound (aB : Nat → Option Nat) (ok : Nat → Bool) (h : Heap)
    (stack rest : List TermPair) (x y : Nat) (q : PrologUnification) (m : RunLog)
    (nx ny : String) (cx cy : List Nat) (k : Nat)
    (hs : stack = rest ++ [TermPair.mk x y])
    (hx : h[x]? = some (Term.compound nx cx)) (hy : h[y]? = some (Term.compound ny cy))
    (h0 : cx.length ≠ 0) (hxy : cx.length = cy.length)
    (hlen : stack.length < PROLOG_STACK_HEIGHT) :
    prolog_unify_loop_run aB ok (k + 1) h stack q m =
      prolog_unify_loop_run aB ok k h (rest ++ List.zipWith TermPair.mk cx cy) q
        (RunLog.mk m.room m.allocs
          (m.stackPast + (rest.length + cx.length - PROLOG_STACK_SIZE)) m.unifiersPast) := by
  subst hs
  have hlen' : ¬ (PROLOG_STACK_HEIGHT ≤ rest.length + 1) := by
    simp only [List.length_append, List.length_singleton] at hlen; omega
  rw [prolog_unify_loop_run]
  simp only [List.length_append, List.length_singleton,
    List.getLast?_append, List.getLast?_singleton, List.dropLast_concat]
  have hcy : cy ≠ [] := by
    intro hc; rw [hc] at hxy; exact h0 (by simpa using hxy)
  simp [hx, hy, hlen', hxy, hcy]

/-- Term `f(a, ..., a)` with `n` arguments against itself, when `n` is not below
`PROLOG_STACK_SIZE`: the first iteration stores the `n` pairs, those from
index `PROLOG_STACK_SIZE` on past the end of `stack`, and the guard at the top
of the second iteration ends the run with the stack-overflow exit. -/
theorem unify_run_heapWide (aB : Nat → Option Nat) (ok : Nat → Bool) (n fuel : Nat)
    (hn : PROLOG_STACK_SIZE ≤ n) (hok : ok 0 = true) :
    prolog_unify_run aB ok (fuel + 2) (heapWide n) 1 1 =
      some (Ending.overflow (RunLog.mk 64 1 (n - PROLOG_STACK_SIZE) 0)) := by
  have hpos : 0 < PROLOG_STACK_SIZE := by decide
  unfold prolog_unify_run
  rw [if_pos hok]
  rw [loop_run_compound aB ok (heapWide n) [TermPair.mk 1 1] [] 1 1 _ _ "f" "f"
    (List.replicate n 0) (List.replicate n 0) (fuel + 1) rfl rfl rfl
    (by rw [List.length_replicate]; omega) rfl
    (by simp [PROLOG_STACK_HEIGHT, PROLOG_STACK_SIZE])]
  rw [loop_run_overflow aB ok fuel (heapWide n) _ _ _
    (by
      rw [List.nil_append, List.length_zipWith, List.length_replicate, Nat.min_self]
      exact hn)]
  simp only [List.length_nil, List.length_replicate, Nat.zero_add]

